import Mathlib

/-!
Verification development for the CEX cryptographic library core.

The repository sources verified here are SHX.cpp (extended Serpent block
cipher), CSG.h (cSHAKE DRBG, LeftEncode), KDF2.cpp (KDF2 generator) and
StreamWriter.h (little-endian serialization).  The low-level primitives
they call (Serpent.h S-boxes and linear transform, IntUtils endian and
rotation helpers, the HKDF generator and the concrete digests) are not
part of the available sources; where needed they are modelled from the
specification, as flagged in the corresponding doc comments.

Machine integers are modelled as natural numbers bounded by 2^32
(the C++ `uint`), bytes as natural numbers below 256, and byte buffers as
lists of naturals.  Fallible operations (exceptions, out-of-bounds
accesses that are undefined behaviour in C++) return `Except`/`Option`.
-/

/-- A 32-bit machine word: a natural number below 2^32 (C++ `uint`). -/
abbrev W32 := {x : ℕ // x < 2 ^ 32}

/-- Truncate a natural number into a 32-bit word, as C++ does when a wider
value is stored into a `uint`. -/
def wrap32 (x : ℕ) : W32 := ⟨x % 2 ^ 32, Nat.mod_lt _ (by norm_num)⟩

/-- Bitwise xor of two 32-bit words. -/
def xor32 (a b : W32) : W32 := ⟨a.1 ^^^ b.1, Nat.xor_lt_two_pow a.2 b.2⟩

/-- Modelled from the spec: the rotate-left primitive of the layer-0
byte/word utilities (IntUtils::RotL32), `(x << r) | (x >> (32 - r))` on a
32-bit word. -/
def rotL32 (a : W32) (r : ℕ) : W32 := wrap32 ((a.1 <<< r) ||| (a.1 >>> (32 - r)))

/-- Modelled from the spec: the rotate-right primitive of the layer-0
byte/word utilities (IntUtils::RotR32), `(x >> r) | (x << (32 - r))` on a
32-bit word. -/
def rotR32 (a : W32) (r : ℕ) : W32 := wrap32 ((a.1 >>> r) ||| (a.1 <<< (32 - r)))

/-- A left shift on a 32-bit word, discarding overflowing bits. -/
def shL32 (a : W32) (r : ℕ) : W32 := wrap32 (a.1 <<< r)

theorem wrap32_val (x : ℕ) : (wrap32 x).1 = x % 2 ^ 32 := rfl

theorem wrap32_self (a : W32) : wrap32 a.1 = a :=
  Subtype.ext (Nat.mod_eq_of_lt a.2)

theorem wrap32_eq_of_lt {x : ℕ} (h : x < 2 ^ 32) : (wrap32 x).1 = x :=
  Nat.mod_eq_of_lt h

theorem xor32_cancel (a b : W32) : xor32 (xor32 a b) b = a :=
  Subtype.ext (Nat.xor_cancel_right _ _)

theorem testBit_rotL32 (a : W32) {r : ℕ} (hr0 : 0 < r) (hr : r < 32) {j : ℕ}
    (hj : j < 32) :
    (rotL32 a r).1.testBit j = a.1.testBit (if r ≤ j then j - r else j + 32 - r) := by
  have ha := a.2
  have hdec : decide (j < 32) = true := decide_eq_true hj
  simp only [rotL32, wrap32_val, Nat.testBit_mod_two_pow, Nat.testBit_or,
    Nat.testBit_shiftLeft, Nat.testBit_shiftRight, hdec, Bool.true_and,
    ge_iff_le]
  by_cases hrj : r ≤ j
  · have hfalse : a.1.testBit (32 - r + j) = false :=
      Nat.testBit_lt_two_pow (lt_of_lt_of_le ha (Nat.pow_le_pow_right (by norm_num) (by omega)))
    simp [hrj, hfalse]
  · have : 32 - r + j = j + 32 - r := by omega
    simp [hrj, this]

theorem testBit_rotR32 (a : W32) {r : ℕ} (hr0 : 0 < r) (hr : r < 32) {j : ℕ}
    (hj : j < 32) :
    (rotR32 a r).1.testBit j = a.1.testBit (if j < 32 - r then r + j else j - (32 - r)) := by
  have ha := a.2
  have hdec : decide (j < 32) = true := decide_eq_true hj
  simp only [rotR32, wrap32_val, Nat.testBit_mod_two_pow, Nat.testBit_or,
    Nat.testBit_shiftLeft, Nat.testBit_shiftRight, hdec, Bool.true_and,
    ge_iff_le]
  by_cases hjr : j < 32 - r
  · have hnot : ¬ (32 - r ≤ j) := by omega
    simp [hjr, hnot]
  · have hfalse : a.1.testBit (r + j) = false :=
      Nat.testBit_lt_two_pow (lt_of_lt_of_le ha (Nat.pow_le_pow_right (by norm_num) (by omega)))
    have hle : 32 - r ≤ j := by omega
    simp [hjr, hfalse, hle]

theorem rotR32_rotL32 (a : W32) {r : ℕ} (hr0 : 0 < r) (hr : r < 32) :
    rotR32 (rotL32 a r) r = a := by
  apply Subtype.ext
  apply Nat.eq_of_testBit_eq
  intro j
  by_cases hj : j < 32
  · rw [testBit_rotR32 _ hr0 hr hj]
    by_cases hcase : j < 32 - r
    · rw [if_pos hcase, testBit_rotL32 a hr0 hr (by omega)]
      have hle : r ≤ r + j := by omega
      rw [if_pos hle]
      congr 1
      omega
    · rw [if_neg hcase, testBit_rotL32 a hr0 hr (by omega)]
      have hnot : ¬ r ≤ j - (32 - r) := by omega
      rw [if_neg hnot]
      congr 1
      omega
  · have h1 : (rotR32 (rotL32 a r) r).1.testBit j = false :=
      Nat.testBit_lt_two_pow
        (lt_of_lt_of_le (rotR32 (rotL32 a r) r).2 (Nat.pow_le_pow_right (by norm_num) (by omega)))
    have h2 : a.1.testBit j = false :=
      Nat.testBit_lt_two_pow
        (lt_of_lt_of_le a.2 (Nat.pow_le_pow_right (by norm_num) (by omega)))
    rw [h1, h2]

/-- A Serpent working state or subkey group: four 32-bit words, matching
the registers R0..R3 of SHX.cpp. -/
structure Word4 where
  r0 : W32
  r1 : W32
  r2 : W32
  r3 : W32
deriving DecidableEq

theorem Word4.ext_iff_mk {a b : Word4} :
    a = b ↔ a.r0 = b.r0 ∧ a.r1 = b.r1 ∧ a.r2 = b.r2 ∧ a.r3 = b.r3 := by
  cases a; cases b; simp

/-- Assemble a natural number from a bit-valued function on positions
`0..n-1`. -/
def buildWord (f : ℕ → Bool) : ℕ → ℕ
  | 0 => 0
  | j + 1 => buildWord f j ||| (if f j then 2 ^ j else 0)

theorem buildWord_lt (f : ℕ → Bool) (n : ℕ) : buildWord f n < 2 ^ n := by
  induction n with
  | zero => simp [buildWord]
  | succ j ih =>
    have h2 : (if f j then 2 ^ j else 0) < 2 ^ (j + 1) := by
      have : (2 : ℕ) ^ j < 2 ^ (j + 1) := by
        have := Nat.pow_lt_pow_succ (a := 2) (by norm_num) (n := j)
        omega
      split
      · exact this
      · positivity
    exact Nat.or_lt_two_pow
      (lt_of_lt_of_le ih (Nat.pow_le_pow_right (by norm_num) (by omega))) h2

theorem testBit_buildWord (f : ℕ → Bool) (n j : ℕ) :
    (buildWord f n).testBit j = (decide (j < n) && f j) := by
  induction n with
  | zero => simp [buildWord]
  | succ m ih =>
    simp only [buildWord, Nat.testBit_or, ih]
    rcases lt_trichotomy j m with h | h | h
    · have h1 : decide (j < m) = true := decide_eq_true h
      have h2 : decide (j < m + 1) = true := decide_eq_true (by omega)
      have h3 : (if f m then 2 ^ m else 0).testBit j = false := by
        split
        · exact Nat.testBit_two_pow_of_ne (by omega)
        · simp
      simp [h1, h2, h3]
    · subst h
      have h1 : decide (j < j) = false := decide_eq_false (by omega)
      have h2 : decide (j < j + 1) = true := decide_eq_true (by omega)
      have h3 : (if f j then 2 ^ j else 0).testBit j = f j := by
        cases hf : f j <;> simp [hf, Nat.testBit_two_pow_self]
      simp [h1, h2, h3]
    · have h1 : decide (j < m) = false := decide_eq_false (by omega)
      have h2 : decide (j < m + 1) = false := decide_eq_false (by omega)
      have h3 : (if f m then 2 ^ m else 0).testBit j = false := by
        split
        · exact Nat.testBit_two_pow_of_ne (by omega)
        · simp
      simp [h1, h2, h3]

/-- Numeric value of one bit. -/
def bitN (b : Bool) : ℕ := if b then 1 else 0

/-- The 4-bit column of a bitsliced state at bit position `j`: register
`r0` carries the least significant bit. -/
def nibbleAt (w : Word4) (j : ℕ) : ℕ :=
  bitN (w.r0.1.testBit j) + 2 * bitN (w.r1.1.testBit j) +
    4 * bitN (w.r2.1.testBit j) + 8 * bitN (w.r3.1.testBit j)

theorem nibbleAt_lt (w : Word4) (j : ℕ) : nibbleAt w j < 16 := by
  unfold nibbleAt bitN
  split <;> split <;> split <;> split <;> omega

/-- Modelled from the spec: application of a published Serpent S-box
table to a bitsliced state.  The source realizes each S-box by
constant-time bitwise formulas (Serpent.h, not among the available
sources); its defining semantics, per SP and the Serpent submission, is
the 4-bit substitution applied independently at each of the 32 bit
positions of the four registers. -/
def sboxApply (T : ℕ → ℕ) (w : Word4) : Word4 where
  r0 := ⟨buildWord (fun j => (T (nibbleAt w j)).testBit 0) 32, buildWord_lt _ _⟩
  r1 := ⟨buildWord (fun j => (T (nibbleAt w j)).testBit 1) 32, buildWord_lt _ _⟩
  r2 := ⟨buildWord (fun j => (T (nibbleAt w j)).testBit 2) 32, buildWord_lt _ _⟩
  r3 := ⟨buildWord (fun j => (T (nibbleAt w j)).testBit 3) 32, buildWord_lt _ _⟩

theorem bitN_recompose : ∀ m : ℕ, m < 16 →
    bitN (m.testBit 0) + 2 * bitN (m.testBit 1) + 4 * bitN (m.testBit 2) +
      8 * bitN (m.testBit 3) = m := by decide

theorem nibbleAt_sboxApply (T : ℕ → ℕ) (hT : ∀ m : ℕ, m < 16 → T m < 16)
    (w : Word4) {j : ℕ} (hj : j < 32) :
    nibbleAt (sboxApply T w) j = T (nibbleAt w j) := by
  have hdec : decide (j < 32) = true := decide_eq_true hj
  simp only [nibbleAt, sboxApply, testBit_buildWord, hdec, Bool.true_and]
  exact bitN_recompose _ (hT _ (nibbleAt_lt w j))

theorem nibble_testBit_decompose : ∀ (b0 b1 b2 b3 : Bool),
    (bitN b0 + 2 * bitN b1 + 4 * bitN b2 + 8 * bitN b3).testBit 0 = b0 ∧
    (bitN b0 + 2 * bitN b1 + 4 * bitN b2 + 8 * bitN b3).testBit 1 = b1 ∧
    (bitN b0 + 2 * bitN b1 + 4 * bitN b2 + 8 * bitN b3).testBit 2 = b2 ∧
    (bitN b0 + 2 * bitN b1 + 4 * bitN b2 + 8 * bitN b3).testBit 3 = b3 := by
  decide

theorem sboxApply_leftInverse (T TI : ℕ → ℕ)
    (hT : ∀ m : ℕ, m < 16 → T m < 16)
    (hTI : ∀ m : ℕ, m < 16 → TI (T m) = m) (w : Word4) :
    sboxApply TI (sboxApply T w) = w := by
  have hval32 : ∀ a : W32, ∀ j : ℕ, ¬ j < 32 → a.1.testBit j = false := by
    intro a j hj
    exact Nat.testBit_lt_two_pow
      (lt_of_lt_of_le a.2 (Nat.pow_le_pow_right (by norm_num) (by omega)))
  have key : ∀ (g : Word4 → W32) (k : ℕ),
      (∀ (F : ℕ → ℕ) (u : Word4),
        (g (sboxApply F u)).1 = buildWord (fun j => (F (nibbleAt u j)).testBit k) 32) →
      (∀ (u : Word4) (j : ℕ), (nibbleAt u j).testBit k = (g u).1.testBit j) →
      g (sboxApply TI (sboxApply T w)) = g w := by
    intro g k hg hbitk
    apply Subtype.ext
    apply Nat.eq_of_testBit_eq
    intro j
    by_cases hj : j < 32
    · rw [hg TI (sboxApply T w), testBit_buildWord, decide_eq_true hj, Bool.true_and,
        nibbleAt_sboxApply T hT w hj, hTI _ (nibbleAt_lt w j)]
      exact hbitk w j
    · rw [hval32 _ j hj, hval32 _ j hj]
  have h0 := key Word4.r0 0 (fun F u => rfl)
    (fun u j => (nibble_testBit_decompose _ _ _ _).1)
  have h1 := key Word4.r1 1 (fun F u => rfl)
    (fun u j => (nibble_testBit_decompose _ _ _ _).2.1)
  have h2 := key Word4.r2 2 (fun F u => rfl)
    (fun u j => (nibble_testBit_decompose _ _ _ _).2.2.1)
  have h3 := key Word4.r3 3 (fun F u => rfl)
    (fun u j => (nibble_testBit_decompose _ _ _ _).2.2.2)
  rw [Word4.ext_iff_mk]
  exact ⟨h0, h1, h2, h3⟩

/-- Modelled from the spec: Serpent S-box 0, as published by the Serpent
designers. -/
def serpentS0 : ℕ → ℕ := fun n => [3, 8, 15, 1, 10, 6, 5, 11, 14, 13, 4, 2, 7, 0, 9, 12].getD n 0

/-- Modelled from the spec: Serpent S-box 1. -/
def serpentS1 : ℕ → ℕ := fun n => [15, 12, 2, 7, 9, 0, 5, 10, 1, 11, 14, 8, 6, 13, 3, 4].getD n 0

/-- Modelled from the spec: Serpent S-box 2. -/
def serpentS2 : ℕ → ℕ := fun n => [8, 6, 7, 9, 3, 12, 10, 15, 13, 1, 14, 4, 0, 11, 5, 2].getD n 0

/-- Modelled from the spec: Serpent S-box 3. -/
def serpentS3 : ℕ → ℕ := fun n => [0, 15, 11, 8, 12, 9, 6, 3, 13, 1, 2, 4, 10, 7, 5, 14].getD n 0

/-- Modelled from the spec: Serpent S-box 4. -/
def serpentS4 : ℕ → ℕ := fun n => [1, 15, 8, 3, 12, 0, 11, 6, 2, 5, 4, 10, 9, 14, 7, 13].getD n 0

/-- Modelled from the spec: Serpent S-box 5. -/
def serpentS5 : ℕ → ℕ := fun n => [15, 5, 2, 11, 4, 10, 9, 12, 0, 3, 14, 8, 13, 6, 7, 1].getD n 0

/-- Modelled from the spec: Serpent S-box 6. -/
def serpentS6 : ℕ → ℕ := fun n => [7, 2, 12, 5, 8, 4, 6, 11, 14, 9, 1, 15, 13, 3, 10, 0].getD n 0

/-- Modelled from the spec: Serpent S-box 7. -/
def serpentS7 : ℕ → ℕ := fun n => [1, 13, 15, 0, 14, 8, 2, 11, 7, 4, 12, 10, 9, 3, 5, 6].getD n 0

/-- Modelled from the spec: inverse of Serpent S-box 0. -/
def serpentSI0 : ℕ → ℕ := fun n => [13, 3, 11, 0, 10, 6, 5, 12, 1, 14, 4, 7, 15, 9, 8, 2].getD n 0

/-- Modelled from the spec: inverse of Serpent S-box 1. -/
def serpentSI1 : ℕ → ℕ := fun n => [5, 8, 2, 14, 15, 6, 12, 3, 11, 4, 7, 9, 1, 13, 10, 0].getD n 0

/-- Modelled from the spec: inverse of Serpent S-box 2. -/
def serpentSI2 : ℕ → ℕ := fun n => [12, 9, 15, 4, 11, 14, 1, 2, 0, 3, 6, 13, 5, 8, 10, 7].getD n 0

/-- Modelled from the spec: inverse of Serpent S-box 3. -/
def serpentSI3 : ℕ → ℕ := fun n => [0, 9, 10, 7, 11, 14, 6, 13, 3, 5, 12, 2, 4, 8, 15, 1].getD n 0

/-- Modelled from the spec: inverse of Serpent S-box 4. -/
def serpentSI4 : ℕ → ℕ := fun n => [5, 0, 8, 3, 10, 9, 7, 14, 2, 12, 11, 6, 4, 15, 13, 1].getD n 0

/-- Modelled from the spec: inverse of Serpent S-box 5. -/
def serpentSI5 : ℕ → ℕ := fun n => [8, 15, 2, 9, 4, 1, 13, 14, 11, 6, 5, 3, 7, 12, 10, 0].getD n 0

/-- Modelled from the spec: inverse of Serpent S-box 6. -/
def serpentSI6 : ℕ → ℕ := fun n => [15, 10, 1, 13, 5, 3, 6, 0, 4, 9, 14, 7, 2, 12, 8, 11].getD n 0

/-- Modelled from the spec: inverse of Serpent S-box 7. -/
def serpentSI7 : ℕ → ℕ := fun n => [3, 0, 6, 13, 9, 14, 15, 8, 5, 12, 11, 7, 10, 1, 4, 2].getD n 0

/-- The bitsliced S-box Sb0 of Serpent.h. -/
def Sb0 : Word4 → Word4 := sboxApply serpentS0

/-- The bitsliced S-box Sb1 of Serpent.h. -/
def Sb1 : Word4 → Word4 := sboxApply serpentS1

/-- The bitsliced S-box Sb2 of Serpent.h. -/
def Sb2 : Word4 → Word4 := sboxApply serpentS2

/-- The bitsliced S-box Sb3 of Serpent.h. -/
def Sb3 : Word4 → Word4 := sboxApply serpentS3

/-- The bitsliced S-box Sb4 of Serpent.h. -/
def Sb4 : Word4 → Word4 := sboxApply serpentS4

/-- The bitsliced S-box Sb5 of Serpent.h. -/
def Sb5 : Word4 → Word4 := sboxApply serpentS5

/-- The bitsliced S-box Sb6 of Serpent.h. -/
def Sb6 : Word4 → Word4 := sboxApply serpentS6

/-- The bitsliced S-box Sb7 of Serpent.h. -/
def Sb7 : Word4 → Word4 := sboxApply serpentS7

/-- The bitsliced inverse S-box Ib0 of Serpent.h. -/
def Ib0 : Word4 → Word4 := sboxApply serpentSI0

/-- The bitsliced inverse S-box Ib1 of Serpent.h. -/
def Ib1 : Word4 → Word4 := sboxApply serpentSI1

/-- The bitsliced inverse S-box Ib2 of Serpent.h. -/
def Ib2 : Word4 → Word4 := sboxApply serpentSI2

/-- The bitsliced inverse S-box Ib3 of Serpent.h. -/
def Ib3 : Word4 → Word4 := sboxApply serpentSI3

/-- The bitsliced inverse S-box Ib4 of Serpent.h. -/
def Ib4 : Word4 → Word4 := sboxApply serpentSI4

/-- The bitsliced inverse S-box Ib5 of Serpent.h. -/
def Ib5 : Word4 → Word4 := sboxApply serpentSI5

/-- The bitsliced inverse S-box Ib6 of Serpent.h. -/
def Ib6 : Word4 → Word4 := sboxApply serpentSI6

/-- The bitsliced inverse S-box Ib7 of Serpent.h. -/
def Ib7 : Word4 → Word4 := sboxApply serpentSI7

theorem ib0_sb0 (w : Word4) : Ib0 (Sb0 w) = w :=
  sboxApply_leftInverse _ _ (by decide) (by decide) w

theorem ib1_sb1 (w : Word4) : Ib1 (Sb1 w) = w :=
  sboxApply_leftInverse _ _ (by decide) (by decide) w

theorem ib2_sb2 (w : Word4) : Ib2 (Sb2 w) = w :=
  sboxApply_leftInverse _ _ (by decide) (by decide) w

theorem ib3_sb3 (w : Word4) : Ib3 (Sb3 w) = w :=
  sboxApply_leftInverse _ _ (by decide) (by decide) w

theorem ib4_sb4 (w : Word4) : Ib4 (Sb4 w) = w :=
  sboxApply_leftInverse _ _ (by decide) (by decide) w

theorem ib5_sb5 (w : Word4) : Ib5 (Sb5 w) = w :=
  sboxApply_leftInverse _ _ (by decide) (by decide) w

theorem ib6_sb6 (w : Word4) : Ib6 (Sb6 w) = w :=
  sboxApply_leftInverse _ _ (by decide) (by decide) w

theorem ib7_sb7 (w : Word4) : Ib7 (Sb7 w) = w :=
  sboxApply_leftInverse _ _ (by decide) (by decide) w

/-- Modelled from the spec: the Serpent linear diffusion transform of
Serpent.h, as published by the Serpent designers. -/
def linearTransform (w : Word4) : Word4 :=
  let x0 := rotL32 w.r0 13
  let x2 := rotL32 w.r2 3
  let x1 := xor32 w.r1 (xor32 x0 x2)
  let x3 := xor32 w.r3 (xor32 x2 (shL32 x0 3))
  let y1 := rotL32 x1 1
  let y3 := rotL32 x3 7
  let y0 := xor32 x0 (xor32 y1 y3)
  let y2 := xor32 x2 (xor32 y3 (shL32 y1 7))
  ⟨rotL32 y0 5, y1, rotL32 y2 22, y3⟩

/-- Modelled from the spec: the inverse Serpent linear diffusion
transform of Serpent.h, as published by the Serpent designers. -/
def invLinearTransform (w : Word4) : Word4 :=
  let a2 := rotR32 w.r2 22
  let a0 := rotR32 w.r0 5
  let b2 := xor32 a2 (xor32 w.r3 (shL32 w.r1 7))
  let b0 := xor32 a0 (xor32 w.r1 w.r3)
  let a3 := rotR32 w.r3 7
  let a1 := rotR32 w.r1 1
  let b3 := xor32 a3 (xor32 b2 (shL32 b0 3))
  let b1 := xor32 a1 (xor32 b0 b2)
  ⟨rotR32 b0 13, b1, rotR32 b2 3, b3⟩

theorem invLT_LT (w : Word4) : invLinearTransform (linearTransform w) = w := by
  have e13 : ∀ a : W32, rotR32 (rotL32 a 13) 13 = a := fun a => rotR32_rotL32 a (by norm_num) (by norm_num)
  have e3 : ∀ a : W32, rotR32 (rotL32 a 3) 3 = a := fun a => rotR32_rotL32 a (by norm_num) (by norm_num)
  have e1 : ∀ a : W32, rotR32 (rotL32 a 1) 1 = a := fun a => rotR32_rotL32 a (by norm_num) (by norm_num)
  have e7 : ∀ a : W32, rotR32 (rotL32 a 7) 7 = a := fun a => rotR32_rotL32 a (by norm_num) (by norm_num)
  have e5 : ∀ a : W32, rotR32 (rotL32 a 5) 5 = a := fun a => rotR32_rotL32 a (by norm_num) (by norm_num)
  have e22 : ∀ a : W32, rotR32 (rotL32 a 22) 22 = a := fun a => rotR32_rotL32 a (by norm_num) (by norm_num)
  simp only [linearTransform, invLinearTransform, e13, e3, e1, e7, e5, e22, xor32_cancel]

/-- The per-round subkey xor of SHX.cpp: `R0 ^= key[c]; R1 ^= key[c+1];
R2 ^= key[c+2]; R3 ^= key[c+3]`, with the four consecutive subkey words
grouped as one `Word4`. -/
def xorQ (q w : Word4) : Word4 :=
  ⟨xor32 w.r0 q.r0, xor32 w.r1 q.r1, xor32 w.r2 q.r2, xor32 w.r3 q.r3⟩

theorem xorQ_cancel (q w : Word4) : xorQ q (xorQ q w) = w := by
  cases w
  simp [xorQ, xor32_cancel]

/-- Group a flat expanded-key word vector into quadruples, the unit in
which SHX.cpp indexes `m_expKey` (always four consecutive words at a
4-aligned counter). -/
def toQuads : List W32 → List Word4
  | a :: b :: c :: d :: rest => ⟨a, b, c, d⟩ :: toQuads rest
  | _ => []

theorem toQuads_length : ∀ (n : ℕ) (l : List W32), l.length = n →
    l.length % 4 = 0 → (toQuads l).length = l.length / 4 := by
  intro n
  induction n using Nat.strong_induction_on with
  | _ n ih =>
    intro l hn hmod
    match l with
    | [] => simp [toQuads]
    | [a] => simp at hmod
    | [a, b] => simp at hmod
    | [a, b, c] => simp at hmod
    | a :: b :: c :: d :: rest =>
      simp only [toQuads, List.length_cons]
      have hr : rest.length % 4 = 0 := by
        simp only [List.length_cons] at hmod
        omega
      have hlt : rest.length < n := by
        simp only [List.length_cons] at hn
        omega
      rw [ih _ hlt rest rfl hr]
      omega

/-- One eight-round block of SHX::Encrypt128: the do-loop body; each
round xors a subkey quad, applies the round S-box and (except after Sb7)
the linear transform. -/
def encBlock8 (q0 q1 q2 q3 q4 q5 q6 q7 : Word4) (w : Word4) : Word4 :=
  let w0 := linearTransform (Sb0 (xorQ q0 w))
  let w1 := linearTransform (Sb1 (xorQ q1 w0))
  let w2 := linearTransform (Sb2 (xorQ q2 w1))
  let w3 := linearTransform (Sb3 (xorQ q3 w2))
  let w4 := linearTransform (Sb4 (xorQ q4 w3))
  let w5 := linearTransform (Sb5 (xorQ q5 w4))
  let w6 := linearTransform (Sb6 (xorQ q6 w5))
  Sb7 (xorQ q7 w6)

/-- One eight-round block of SHX::Decrypt128: the do-loop body from Ib7
down to Ib0 with the subkey xors and inverse linear transforms, followed
by the subkey xor that the code performs after Ib0 (for the first block
this final xor is the output whitening done while writing the output). -/
def decBlock8 (q0 q1 q2 q3 q4 q5 q6 q7 : Word4) (w : Word4) : Word4 :=
  let v7 := Ib7 w
  let v6 := Ib6 (invLinearTransform (xorQ q7 v7))
  let v5 := Ib5 (invLinearTransform (xorQ q6 v6))
  let v4 := Ib4 (invLinearTransform (xorQ q5 v5))
  let v3 := Ib3 (invLinearTransform (xorQ q4 v4))
  let v2 := Ib2 (invLinearTransform (xorQ q3 v3))
  let v1 := Ib1 (invLinearTransform (xorQ q2 v2))
  let v0 := Ib0 (invLinearTransform (xorQ q1 v1))
  xorQ q0 v0

theorem decBlock8_encBlock8 (q0 q1 q2 q3 q4 q5 q6 q7 w : Word4) :
    decBlock8 q0 q1 q2 q3 q4 q5 q6 q7 (encBlock8 q0 q1 q2 q3 q4 q5 q6 q7 w) = w := by
  simp only [encBlock8, decBlock8, ib7_sb7, ib6_sb6, ib5_sb5, ib4_sb4, ib3_sb3,
    ib2_sb2, ib1_sb1, ib0_sb0, invLT_LT, xorQ_cancel]

/-- The encryption round loop of SHX::Encrypt128 over the quad-grouped
expanded key, including the final output whitening: each iteration
consumes eight subkey quads; between blocks (`keyCtr != RNDCNT`) the
linear transform is applied; the last four subkey words are xored into
the state as the final round.  A key vector whose length does not let the
loop land exactly on `RNDCNT` makes the C++ code read out of bounds
(undefined behaviour), modelled by `none`. -/
def encQuads : List Word4 → Word4 → Option Word4
  | q0 :: q1 :: q2 :: q3 :: q4 :: q5 :: q6 :: q7 :: rest, w =>
    match rest with
    | [qf] => some (xorQ qf (encBlock8 q0 q1 q2 q3 q4 q5 q6 q7 w))
    | _ => encQuads rest (linearTransform (encBlock8 q0 q1 q2 q3 q4 q5 q6 q7 w))
  | _, _ => none

/-- The decryption round loop of SHX::Decrypt128 over the quad-grouped
expanded key, consuming the key from the end: input whitening with the
last quad, then per block Ib7..Ib0 with subkey xors and inverse linear
transforms, the inverse linear transform being applied between blocks. -/
def decQuads : List Word4 → Word4 → Option Word4
  | q0 :: q1 :: q2 :: q3 :: q4 :: q5 :: q6 :: q7 :: rest, w =>
    match rest with
    | [qf] => some (decBlock8 q0 q1 q2 q3 q4 q5 q6 q7 (xorQ qf w))
    | _ => (decQuads rest w).map
        (fun y => decBlock8 q0 q1 q2 q3 q4 q5 q6 q7 (invLinearTransform y))
  | _, _ => none

theorem decQuads_encQuads : ∀ (n : ℕ) (qs : List Word4), qs.length = n →
    qs.length % 8 = 1 → ∀ w c, encQuads qs w = some c → decQuads qs c = some w := by
  intro n
  induction n using Nat.strong_induction_on with
  | _ n ih =>
    intro qs hn hmod w c henc
    match qs with
    | [] => simp at hmod
    | [q0] => simp [encQuads] at henc
    | [q0, q1] => simp at hmod
    | [q0, q1, q2] => simp at hmod
    | [q0, q1, q2, q3] => simp at hmod
    | [q0, q1, q2, q3, q4] => simp at hmod
    | [q0, q1, q2, q3, q4, q5] => simp at hmod
    | [q0, q1, q2, q3, q4, q5, q6] => simp at hmod
    | [q0, q1, q2, q3, q4, q5, q6, q7] => simp at hmod
    | [q0, q1, q2, q3, q4, q5, q6, q7, qf] =>
      simp only [encQuads, Option.some.injEq] at henc
      simp only [decQuads]
      rw [← henc, xorQ_cancel, decBlock8_encBlock8]
    | q0 :: q1 :: q2 :: q3 :: q4 :: q5 :: q6 :: q7 :: a :: b :: rest2 =>
      simp only [encQuads] at henc
      simp only [decQuads]
      have hlt : (a :: b :: rest2).length < n := by
        simp only [List.length_cons] at hn ⊢
        omega
      have hmod2 : (a :: b :: rest2).length % 8 = 1 := by
        simp only [List.length_cons] at hmod ⊢
        omega
      rw [ih _ hlt (a :: b :: rest2) rfl hmod2 _ _ henc]
      simp only [Option.map_some']
      rw [invLT_LT, decBlock8_encBlock8]

theorem encQuads_total : ∀ (n : ℕ) (qs : List Word4), qs.length = n →
    qs.length % 8 = 1 → 9 ≤ qs.length → ∀ w, ∃ c, encQuads qs w = some c := by
  intro n
  induction n using Nat.strong_induction_on with
  | _ n ih =>
    intro qs hn hmod hlen w
    match qs with
    | [] => simp at hlen
    | [q0] => simp at hlen
    | [q0, q1] => simp at hlen
    | [q0, q1, q2] => simp at hlen
    | [q0, q1, q2, q3] => simp at hlen
    | [q0, q1, q2, q3, q4] => simp at hlen
    | [q0, q1, q2, q3, q4, q5] => simp at hlen
    | [q0, q1, q2, q3, q4, q5, q6] => simp at hlen
    | [q0, q1, q2, q3, q4, q5, q6, q7] => simp at hmod
    | [q0, q1, q2, q3, q4, q5, q6, q7, qf] => exact ⟨_, rfl⟩
    | q0 :: q1 :: q2 :: q3 :: q4 :: q5 :: q6 :: q7 :: a :: b :: rest2 =>
      simp only [encQuads]
      have hlt : (a :: b :: rest2).length < n := by
        simp only [List.length_cons] at hn ⊢
        omega
      exact ih _ hlt (a :: b :: rest2) rfl
        (by simp only [List.length_cons] at hmod ⊢; omega)
        (by simp only [List.length_cons] at hmod ⊢; omega) _

theorem decQuads_total : ∀ (n : ℕ) (qs : List Word4), qs.length = n →
    qs.length % 8 = 1 → 9 ≤ qs.length → ∀ w, ∃ c, decQuads qs w = some c := by
  intro n
  induction n using Nat.strong_induction_on with
  | _ n ih =>
    intro qs hn hmod hlen w
    match qs with
    | [] => simp at hlen
    | [q0] => simp at hlen
    | [q0, q1] => simp at hlen
    | [q0, q1, q2] => simp at hlen
    | [q0, q1, q2, q3] => simp at hlen
    | [q0, q1, q2, q3, q4] => simp at hlen
    | [q0, q1, q2, q3, q4, q5] => simp at hlen
    | [q0, q1, q2, q3, q4, q5, q6] => simp at hlen
    | [q0, q1, q2, q3, q4, q5, q6, q7] => simp at hmod
    | [q0, q1, q2, q3, q4, q5, q6, q7, qf] => exact ⟨_, rfl⟩
    | q0 :: q1 :: q2 :: q3 :: q4 :: q5 :: q6 :: q7 :: a :: b :: rest2 =>
      simp only [decQuads]
      have hlt : (a :: b :: rest2).length < n := by
        simp only [List.length_cons] at hn ⊢
        omega
      obtain ⟨c, hc⟩ := ih _ hlt (a :: b :: rest2) rfl
        (by simp only [List.length_cons] at hmod ⊢; omega)
        (by simp only [List.length_cons] at hmod ⊢; omega) w
      exact ⟨_, by rw [hc]; rfl⟩

/-- Modelled from the spec: IntUtils::LeBytesTo32, little-endian load of
four bytes. -/
def leBytesTo32 (b : List ℕ) (off : ℕ) : ℕ :=
  b.getD off 0 + 2 ^ 8 * b.getD (off + 1) 0 + 2 ^ 16 * b.getD (off + 2) 0 +
    2 ^ 24 * b.getD (off + 3) 0

/-- Little-endian load of four bytes into a 32-bit register. -/
def leW (b : List ℕ) (off : ℕ) : W32 := wrap32 (leBytesTo32 b off)

/-- Modelled from the spec: IntUtils::BeBytesTo32, big-endian load of
four bytes. -/
def beBytesTo32 (b : List ℕ) (off : ℕ) : ℕ :=
  2 ^ 24 * b.getD off 0 + 2 ^ 16 * b.getD (off + 1) 0 + 2 ^ 8 * b.getD (off + 2) 0 +
    b.getD (off + 3) 0

/-- Modelled from the spec: IntUtils::Le32ToBytes, little-endian store of
a 32-bit value as four bytes. -/
def le32ToBytes (x : ℕ) : List ℕ :=
  [x % 2 ^ 8, x / 2 ^ 8 % 2 ^ 8, x / 2 ^ 16 % 2 ^ 8, x / 2 ^ 24 % 2 ^ 8]

/-- Overwrite `src.length` bytes of `out` starting at `off`: the
semantics of the contiguous byte stores the source performs into an
output vector. -/
def writeBytes (out : List ℕ) (off : ℕ) (src : List ℕ) : List ℕ :=
  out.take off ++ src ++ out.drop (off + src.length)

/-- The `n`-byte window of a buffer starting at `off`. -/
def byteSlice (l : List ℕ) (off n : ℕ) : List ℕ := (l.drop off).take n

theorem writeBytes_length (out : List ℕ) (off : ℕ) (src : List ℕ)
    (h : off + src.length ≤ out.length) : (writeBytes out off src).length = out.length := by
  simp [writeBytes, List.length_take, List.length_drop]
  omega

theorem writeBytes_replicate_eq (src : List ℕ) (n : ℕ) (h : src.length = n) :
    writeBytes (List.replicate n 0) 0 src = src := by
  simp [writeBytes, List.drop_replicate, h]

theorem getD_slice (l : List ℕ) (off n t : ℕ) (ht : t < n) :
    (byteSlice l off n).getD t 0 = l.getD (off + t) 0 := by
  simp only [byteSlice, List.getD_eq_getElem?_getD, List.getElem?_take,
    List.getElem?_drop, ht, if_pos]

theorem slice_length (l : List ℕ) (off n : ℕ) (h : off + n ≤ l.length) :
    (byteSlice l off n).length = n := by
  simp [byteSlice, List.length_take, List.length_drop]
  omega

theorem slice_writeBytes_self (out : List ℕ) (off : ℕ) (src : List ℕ)
    (hoff : off + src.length ≤ out.length) :
    byteSlice (writeBytes out off src) off src.length = src := by
  have htl : (List.take off out).length = off := by
    simp [List.length_take]
    omega
  have hdrop := List.drop_left (List.take off out) (src ++ List.drop (off + src.length) out)
  rw [htl] at hdrop
  have htk := List.take_left src (List.drop (off + src.length) out)
  simp only [byteSlice, writeBytes, List.append_assoc, hdrop, htk]

theorem slice_writeBytes_below (out : List ℕ) (offW : ℕ) (src : List ℕ)
    (offS n : ℕ) (hbelow : offS + n ≤ offW) (hW : offW ≤ out.length) :
    byteSlice (writeBytes out offW src) offS n = byteSlice out offS n := by
  simp only [byteSlice, writeBytes, List.append_assoc]
  rw [List.drop_append_eq_append_drop, List.take_append_eq_append_take]
  have hlen : n - (List.drop offS (List.take offW out)).length = 0 := by
    simp [List.length_drop, List.length_take]
    omega
  rw [hlen, List.take_zero, List.append_nil]
  rw [List.drop_take, List.take_take]
  congr 1
  omega

theorem slice_writeBytes_above (out : List ℕ) (offW : ℕ) (src : List ℕ)
    (offS n : ℕ) (habove : offW + src.length ≤ offS) (hW : offW + src.length ≤ out.length) :
    byteSlice (writeBytes out offW src) offS n = byteSlice out offS n := by
  have htl : (List.take offW out ++ src).length = offW + src.length := by
    simp [List.length_take]
    omega
  simp only [byteSlice, writeBytes]
  rw [List.drop_append_eq_append_drop, List.drop_append_eq_append_drop]
  have h1 : List.drop offS (List.take offW out) = [] :=
    List.drop_of_length_le (by simp [List.length_take]; omega)
  have h2 : List.drop (offS - (List.take offW out).length) src = [] :=
    List.drop_of_length_le (by simp [List.length_take]; omega)
  rw [h1, h2, List.drop_drop]
  simp only [List.nil_append]
  congr 2
  simp [List.length_take]
  omega

/-- The sixteen ciphertext bytes SHX::Encrypt128 produces for the block
at `inOff` of `inp`: the four state words are loaded little-endian, run
through the round loop, and stored little-endian (the final subkey xor is
folded into `encQuads`). -/
def encBytes (ek : List W32) (inp : List ℕ) (inOff : ℕ) : Option (List ℕ) :=
  (encQuads (toQuads ek) ⟨leW inp inOff, leW inp (inOff + 4), leW inp (inOff + 8),
      leW inp (inOff + 12)⟩).map
    (fun c => le32ToBytes c.r0.1 ++ le32ToBytes c.r1.1 ++ le32ToBytes c.r2.1 ++
      le32ToBytes c.r3.1)

/-- The sixteen plaintext bytes SHX::Decrypt128 produces for the block at
`inOff` of `inp`. -/
def decBytes (ek : List W32) (inp : List ℕ) (inOff : ℕ) : Option (List ℕ) :=
  (decQuads (toQuads ek) ⟨leW inp inOff, leW inp (inOff + 4), leW inp (inOff + 8),
      leW inp (inOff + 12)⟩).map
    (fun c => le32ToBytes c.r0.1 ++ le32ToBytes c.r1.1 ++ le32ToBytes c.r2.1 ++
      le32ToBytes c.r3.1)

/-- SHX::Encrypt128: encrypt the 16-byte block of `inp` at `inOff` and
write the result into `out` at `outOff`. -/
def encrypt128 (ek : List W32) (inp : List ℕ) (inOff : ℕ) (out : List ℕ) (outOff : ℕ) :
    Option (List ℕ) :=
  (encBytes ek inp inOff).map (fun b => writeBytes out outOff b)

/-- SHX::Decrypt128: decrypt the 16-byte block of `inp` at `inOff` and
write the result into `out` at `outOff`. -/
def decrypt128 (ek : List W32) (inp : List ℕ) (inOff : ℕ) (out : List ℕ) (outOff : ℕ) :
    Option (List ℕ) :=
  (decBytes ek inp inOff).map (fun b => writeBytes out outOff b)

/-- The first `n` sequential single-block calls of a bulk transform: call
`i` reads the block at `inOff + 16·i` and writes at `outOff + 16·i`, like
the unrolled statement sequences of SHX::Encrypt2048 / SHX::Decrypt2048
on the scalar compile path. -/
def blockSeq (F : List ℕ → ℕ → Option (List ℕ)) (inp : List ℕ) (inOff : ℕ)
    (out : List ℕ) (outOff : ℕ) : ℕ → Option (List ℕ)
  | 0 => some out
  | n + 1 =>
    (blockSeq F inp inOff out outOff n).bind
      (fun o => (F inp (inOff + 16 * n)).map (fun b => writeBytes o (outOff + 16 * n) b))

/-- SHX::Encrypt2048 on the scalar compile path: sixteen sequential
Encrypt128 calls at offsets 0, 16, ..., 240. -/
def encrypt2048 (ek : List W32) (inp : List ℕ) (inOff : ℕ) (out : List ℕ) (outOff : ℕ) :
    Option (List ℕ) :=
  blockSeq (encBytes ek) inp inOff out outOff 16

/-- SHX::Decrypt2048 on the scalar compile path: sixteen sequential
Decrypt128 calls at offsets 0, 16, ..., 240. -/
def decrypt2048 (ek : List W32) (inp : List ℕ) (inOff : ℕ) (out : List ℕ) (outOff : ℕ) :
    Option (List ℕ) :=
  blockSeq (decBytes ek) inp inOff out outOff 16

/-- A standard-mode expanded key has `4·(R+1)` words with `R ∈ {32,40}`;
what the round loops need is that the quad count is `≡ 1 (mod 8)` and at
least 9. -/
def GoodKeyWords (ek : List W32) : Prop :=
  ek.length % 32 = 4 ∧ 36 ≤ ek.length

theorem goodKey_quads {ek : List W32} (h : GoodKeyWords ek) :
    (toQuads ek).length % 8 = 1 ∧ 9 ≤ (toQuads ek).length := by
  obtain ⟨h1, h2⟩ := h
  have h4 : ek.length % 4 = 0 := by omega
  rw [toQuads_length ek.length ek rfl h4]
  omega

theorem encBytes_total (ek : List W32) (h : GoodKeyWords ek) (inp : List ℕ) (inOff : ℕ) :
    ∃ b, encBytes ek inp inOff = some b ∧ b.length = 16 := by
  obtain ⟨hm, hl⟩ := goodKey_quads h
  obtain ⟨c, hc⟩ := encQuads_total (toQuads ek).length (toQuads ek) rfl hm hl
    ⟨leW inp inOff, leW inp (inOff + 4), leW inp (inOff + 8), leW inp (inOff + 12)⟩
  refine ⟨_, by rw [encBytes, hc]; rfl, ?_⟩
  simp [le32ToBytes]

theorem decBytes_total (ek : List W32) (h : GoodKeyWords ek) (inp : List ℕ) (inOff : ℕ) :
    ∃ b, decBytes ek inp inOff = some b ∧ b.length = 16 := by
  obtain ⟨hm, hl⟩ := goodKey_quads h
  obtain ⟨c, hc⟩ := decQuads_total (toQuads ek).length (toQuads ek) rfl hm hl
    ⟨leW inp inOff, leW inp (inOff + 4), leW inp (inOff + 8), leW inp (inOff + 12)⟩
  refine ⟨_, by rw [decBytes, hc]; rfl, ?_⟩
  simp [le32ToBytes]

theorem leW_slice (inp : List ℕ) (o t : ℕ) (ht : t + 3 < 16) :
    leW (byteSlice inp o 16) t = leW inp (o + t) := by
  unfold leW leBytesTo32
  rw [getD_slice _ _ _ _ (by omega), getD_slice _ _ _ _ (by omega),
    getD_slice _ _ _ _ (by omega), getD_slice _ _ _ _ (by omega)]
  have h1 : o + (t + 1) = o + t + 1 := by omega
  have h2 : o + (t + 2) = o + t + 2 := by omega
  have h3 : o + (t + 3) = o + t + 3 := by omega
  rw [h1, h2, h3]

theorem encBytes_local (ek : List W32) (inp : List ℕ) (o : ℕ) :
    encBytes ek (byteSlice inp o 16) 0 = encBytes ek inp o := by
  unfold encBytes
  rw [show (0 : ℕ) + 4 = 4 by rfl, show (0 : ℕ) + 8 = 8 by rfl,
    show (0 : ℕ) + 12 = 12 by rfl]
  rw [show leW (byteSlice inp o 16) 0 = leW inp (o + 0) from leW_slice inp o 0 (by omega),
    leW_slice inp o 4 (by omega), leW_slice inp o 8 (by omega),
    leW_slice inp o 12 (by omega)]
  rw [Nat.add_zero]

theorem decBytes_local (ek : List W32) (inp : List ℕ) (o : ℕ) :
    decBytes ek (byteSlice inp o 16) 0 = decBytes ek inp o := by
  unfold decBytes
  rw [show (0 : ℕ) + 4 = 4 by rfl, show (0 : ℕ) + 8 = 8 by rfl,
    show (0 : ℕ) + 12 = 12 by rfl]
  rw [show leW (byteSlice inp o 16) 0 = leW inp (o + 0) from leW_slice inp o 0 (by omega),
    leW_slice inp o 4 (by omega), leW_slice inp o 8 (by omega),
    leW_slice inp o 12 (by omega)]
  rw [Nat.add_zero]

theorem blockSeq_spec (F : List ℕ → ℕ → Option (List ℕ))
    (hF : ∀ inp off, ∃ b, F inp off = some b ∧ b.length = 16)
    (inp : List ℕ) (inOff : ℕ) (out : List ℕ) (outOff : ℕ) (n : ℕ) :
    outOff + 16 * n ≤ out.length →
    ∃ res, blockSeq F inp inOff out outOff n = some res ∧ res.length = out.length ∧
      ∀ i, i < n → ∃ b, F inp (inOff + 16 * i) = some b ∧
        byteSlice res (outOff + 16 * i) 16 = b := by
  induction n with
  | zero =>
    intro _
    exact ⟨out, rfl, rfl, fun i hi => absurd hi (by omega)⟩
  | succ m ih =>
    intro hout
    obtain ⟨res, hres, hlen, hblocks⟩ := ih (by omega)
    obtain ⟨b, hb, hblen⟩ := hF inp (inOff + 16 * m)
    refine ⟨writeBytes res (outOff + 16 * m) b, ?_, ?_, ?_⟩
    · simp only [blockSeq, hres, hb, Option.some_bind, Option.map_some']
    · rw [writeBytes_length _ _ _ (by rw [hlen, hblen]; omega), hlen]
    · intro i hi
      rcases Nat.lt_succ_iff_lt_or_eq.mp hi with hlt | heq
      · obtain ⟨b', hb', hsl⟩ := hblocks i hlt
        refine ⟨b', hb', ?_⟩
        rw [← hsl]
        exact slice_writeBytes_below res (outOff + 16 * m) b _ 16 (by omega)
          (by rw [hlen]; omega)
      · subst heq
        refine ⟨b, hb, ?_⟩
        have hself := slice_writeBytes_self res (outOff + 16 * i) b
          (by rw [hlen, hblen]; omega)
        rw [hblen] at hself
        exact hself

/-- The Serpent fractional constant PHI used by the key schedule. -/
def serpentPHI : ℕ := 0x9E3779B9

/-- The prekey array `Wp[0..7]` of SHX::StandardExpand for keys of at
most 32 bytes, before the rotation loop: the key words loaded big-endian
in reverse order, then (for keys shorter than 32 bytes) a single `1` pad
word, then zeros. -/
def preKeyWords (key : List ℕ) : ℕ → W32 := fun idx =>
  if idx < key.length / 4 then wrap32 (beBytesTo32 key (key.length - 4 * idx - 4))
  else if idx = key.length / 4 ∧ key.length / 4 < 8 then wrap32 1
  else wrap32 0

/-- The rotation extension of the prekey for 16/24/32-byte keys
(SHX::StandardExpand step 2): for `j ≥ 8`,
`Wp[j] = (Wp[j-8] ^ Wp[j-5] ^ Wp[j-3] ^ Wp[j-1] ^ PHI ^ (j-8)) <<< 11`. -/
def wpStd (pre : ℕ → W32) (j : ℕ) : W32 :=
  if j < 8 then pre j
  else
    rotL32 (xor32 (xor32 (xor32 (xor32 (xor32 (wpStd pre (j - 8)) (wpStd pre (j - 5)))
      (wpStd pre (j - 3))) (wpStd pre (j - 1))) (wrap32 serpentPHI)) (wrap32 (j - 8))) 11
decreasing_by all_goals omega

/-- The working-key array `Wk` of SHX::StandardExpand for 16/24/32-byte
keys: `Wk[0..7] = Wp[8..15]`, then for `s ≥ 8`
`Wk[s] = (Wk[s-8] ^ Wk[s-5] ^ Wk[s-3] ^ Wk[s-1] ^ PHI ^ s) <<< 11`. -/
def wkStd (pre : ℕ → W32) (s : ℕ) : W32 :=
  if s < 8 then wpStd pre (s + 8)
  else
    rotL32 (xor32 (xor32 (xor32 (xor32 (xor32 (wkStd pre (s - 8)) (wkStd pre (s - 5)))
      (wkStd pre (s - 3))) (wkStd pre (s - 1))) (wrap32 serpentPHI)) (wrap32 s)) 11
decreasing_by all_goals omega

/-- The rotation extension of the prekey for 64-byte keys
(SHX::StandardExpand, extended polynomial): for `j ≥ 16`,
`Wp[j] = (Wp[j-16] ^ Wp[j-13] ^ Wp[j-11] ^ Wp[j-10] ^ Wp[j-8] ^ Wp[j-5]
^ Wp[j-3] ^ Wp[j-1] ^ PHI ^ (j-16)) <<< 11`. -/
def wpExt (pre : ℕ → W32) (j : ℕ) : W32 :=
  if j < 16 then pre j
  else
    rotL32 (xor32 (xor32 (xor32 (xor32 (xor32 (xor32 (xor32 (xor32 (xor32
      (wpExt pre (j - 16)) (wpExt pre (j - 13))) (wpExt pre (j - 11)))
      (wpExt pre (j - 10))) (wpExt pre (j - 8))) (wpExt pre (j - 5)))
      (wpExt pre (j - 3))) (wpExt pre (j - 1))) (wrap32 serpentPHI))
      (wrap32 (j - 16))) 11
decreasing_by all_goals omega

/-- The working-key array `Wk` of SHX::StandardExpand for 64-byte keys:
`Wk[0..15] = Wp[16..31]`, then for `s ≥ 16` the extended 16-tap rotating
polynomial with taps at distances 16, 13, 11, 10, 8, 5, 3, 1, each word
rotated left by 11. -/
def wkExt (pre : ℕ → W32) (s : ℕ) : W32 :=
  if s < 16 then wpExt pre (s + 16)
  else
    rotL32 (xor32 (xor32 (xor32 (xor32 (xor32 (xor32 (xor32 (xor32 (xor32
      (wkExt pre (s - 16)) (wkExt pre (s - 13))) (wkExt pre (s - 11)))
      (wkExt pre (s - 10))) (wkExt pre (s - 8))) (wkExt pre (s - 5)))
      (wkExt pre (s - 3))) (wkExt pre (s - 1))) (wrap32 serpentPHI))
      (wrap32 s)) 11
decreasing_by all_goals omega

/-- The round count chosen by SHX::StandardExpand: 40 rounds for a
64-byte key, 32 otherwise. -/
def standardRounds (klen : ℕ) : ℕ := if klen = 64 then 40 else 32

/-- The raw expanded working key `Wk` of SHX::StandardExpand (before the
S-box pass), as a list of `4·(rounds+1)` words. -/
def standardWkList (key : List ℕ) : List W32 :=
  (List.range (4 * (standardRounds key.length + 1))).map
    (fun s => if key.length = 64 then wkExt (preKeyWords key) s else wkStd (preKeyWords key) s)

/-- Dispatch table for the key-schedule S-box pass of
SHX::StandardExpand: quad group `g` is processed with S-box
`[3,2,1,0,7,6,5,4]` cyclically (the final lone group lands on Sb3, which
is exactly the terminating `Sb3` call of the source). -/
def schedSbox (g : ℕ) : Word4 → Word4 :=
  match [3, 2, 1, 0, 7, 6, 5, 4].getD (g % 8) 0 with
  | 0 => Sb0
  | 1 => Sb1
  | 2 => Sb2
  | 3 => Sb3
  | 4 => Sb4
  | 5 => Sb5
  | 6 => Sb6
  | 7 => Sb7
  | _ + 8 => fun w => w

/-- Step 4 of SHX::StandardExpand: process the raw expanded words four at
a time with the S-boxes in the fixed order S3, S2, S1, S0, S7, S6, S5,
S4, ending with a final S3. -/
def sboxPass (g : ℕ) : List W32 → List W32
  | a :: b :: c :: d :: rest =>
    let q := schedSbox g ⟨a, b, c, d⟩
    q.r0 :: q.r1 :: q.r2 :: q.r3 :: sboxPass (g + 1) rest
  | rest => rest

/-- SHX::StandardExpand: the final expanded key `m_expKey`. -/
def standardExpandKey (key : List ℕ) : List W32 := sboxPass 0 (standardWkList key)

theorem sboxPass_length : ∀ (g : ℕ) (l : List W32), (sboxPass g l).length = l.length := by
  have key : ∀ (n g : ℕ) (l : List W32), l.length = n → (sboxPass g l).length = l.length := by
    intro n
    induction n using Nat.strong_induction_on with
    | _ n ih =>
      intro g l hn
      match l with
      | [] => rfl
      | [a] => rfl
      | [a, b] => rfl
      | [a, b, c] => rfl
      | a :: b :: c :: d :: rest =>
        simp only [sboxPass, List.length_cons]
        rw [ih rest.length (by simp only [List.length_cons] at hn; omega) (g + 1) rest rfl]
  exact fun g l => key l.length g l rfl

theorem standardWkList_length (key : List ℕ) :
    (standardWkList key).length = 4 * (standardRounds key.length + 1) := by
  simp [standardWkList]

theorem standardExpandKey_length (key : List ℕ) :
    (standardExpandKey key).length = 4 * (standardRounds key.length + 1) := by
  rw [standardExpandKey, sboxPass_length, standardWkList_length]

/-- The exceptions SHX can throw (CryptoSymmetricCipherException sites in
SHX.cpp). -/
inductive CexErr where
  | invalidRounds
  | invalidKeySize
  | invalidInfoSize
deriving DecidableEq

/-- The SHX instance state relevant to the standard (no-digest) cipher
configuration: `m_rndCount`, `m_expKey`, direction and initialization
flags, and the legal sizes loaded by SHX::LoadState. -/
structure SHXState where
  rndCount : ℕ
  expKey : List W32
  isEncryption : Bool
  isInitialized : Bool
  legalKeySizes : List ℕ
  legalRounds : List ℕ
deriving DecidableEq

/-- The SHX constructor in standard mode (DigestType = None): validates
the rounds argument (32..64, multiple of 8) and loads the standard legal
sizes (LoadState with ExtractorType = None: legal rounds {32,40}, legal
key sizes {16,24,32,64} bytes). -/
def shxNew (rounds : ℕ) : Except CexErr SHXState :=
  if rounds ≤ 64 ∧ 32 ≤ rounds ∧ rounds % 8 = 0 then
    .ok { rndCount := rounds, expKey := [], isEncryption := false, isInitialized := false,
          legalKeySizes := [16, 24, 32, 64], legalRounds := [32, 40] }
  else .error .invalidRounds

/-- SHX::Initialize in standard mode: reject a key whose size is not in
LegalKeySizes, otherwise set the direction flag, expand the key with
StandardExpand (which also overwrites `m_rndCount`) and mark the instance
initialized.  The info-size check is digest-mode only and the standard
path ignores the info parameter. -/
def shxInit (st : SHXState) (encryption : Bool) (key : List ℕ) : Except CexErr SHXState :=
  if key.length ∈ st.legalKeySizes then
    .ok { st with isEncryption := encryption,
                  rndCount := standardRounds key.length,
                  expKey := standardExpandKey key,
                  isInitialized := true }
  else .error .invalidKeySize

/-- SHX::Transform: dispatch on `m_isEncryption` to Encrypt128 or
Decrypt128.  Note the source performs no initialization check. -/
def shxTransform (st : SHXState) (inp : List ℕ) (inOff : ℕ) (out : List ℕ) (outOff : ℕ) :
    Option (List ℕ) :=
  if st.isEncryption then encrypt128 st.expKey inp inOff out outOff
  else decrypt128 st.expKey inp inOff out outOff

/-- SHX::Transform2048: dispatch on `m_isEncryption` to Encrypt2048 or
Decrypt2048 (sixteen consecutive 16-byte blocks). -/
def shxTransform2048 (st : SHXState) (inp : List ℕ) (inOff : ℕ) (out : List ℕ)
    (outOff : ℕ) : Option (List ℕ) :=
  if st.isEncryption then encrypt2048 st.expKey inp inOff out outOff
  else decrypt2048 st.expKey inp inOff out outOff

theorem standardExpandKey_good (key : List ℕ)
    (h : key.length = 16 ∨ key.length = 24 ∨ key.length = 32 ∨ key.length = 64) :
    GoodKeyWords (standardExpandKey key) := by
  constructor <;>
    · rw [standardExpandKey_length]
      rcases h with h | h | h | h <;> rw [h] <;> simp [standardRounds]

/-- Which HKDF generator call SHX::SecureExpand performs
(the `change 1.2` branch): a key longer than the digest block size is
split into an HMAC-key part of exactly the block size and a salt part
holding the remainder and HKDF is initialized in Extract-then-Expand
form; otherwise the generator is initialized in Expand-only form with the
whole key (the HKDF engine itself is outside the available sources). -/
inductive HkdfCall where
  | extractExpand (key salt info : List ℕ)
  | expandOnly (key info : List ℕ)
deriving DecidableEq

/-- The branch decision and argument split of SHX::SecureExpand, as a
function of the digest block size, the cipher key and the distribution
code (`m_kdfInfo`). -/
def secureExpandCall (digestBlockSize : ℕ) (key info : List ℕ) : HkdfCall :=
  if key.length > digestBlockSize then
    .extractExpand (key.take digestBlockSize) (key.drop digestBlockSize) info
  else .expandOnly key info

/-- The SHA-512 digest block size in bytes, as returned by
DigestFromName::GetBlockSize for Digests::SHA512. -/
def sha512BlockSize : ℕ := 128

/-- The SHA-512 digest output size in bytes. -/
def sha512DigestSize : ℕ := 64

/-- The legal cipher key sizes SHX::LoadState publishes in digest mode:
the digest output size, the digest block size, and twice the block size
(the last is the size that triggers HKDF Extract). -/
def shxHkdfLegalKeySizes (digestSize blockSize : ℕ) : List ℕ :=
  [digestSize, blockSize, 2 * blockSize]

theorem le32ToBytes_eq (x : ℕ) :
    le32ToBytes x = [x % 256, x / 256 % 256, x / 65536 % 256, x / 16777216 % 256] := rfl

theorem leW_le32_concat (a b c d : W32) :
    leW (le32ToBytes a.1 ++ le32ToBytes b.1 ++ le32ToBytes c.1 ++ le32ToBytes d.1) 0 = a ∧
    leW (le32ToBytes a.1 ++ le32ToBytes b.1 ++ le32ToBytes c.1 ++ le32ToBytes d.1) 4 = b ∧
    leW (le32ToBytes a.1 ++ le32ToBytes b.1 ++ le32ToBytes c.1 ++ le32ToBytes d.1) 8 = c ∧
    leW (le32ToBytes a.1 ++ le32ToBytes b.1 ++ le32ToBytes c.1 ++ le32ToBytes d.1) 12 = d := by
  have ha : a.1 < 4294967296 := by have := a.2; norm_num at this; exact this
  have hb : b.1 < 4294967296 := by have := b.2; norm_num at this; exact this
  have hc : c.1 < 4294967296 := by have := c.2; norm_num at this; exact this
  have hd : d.1 < 4294967296 := by have := d.2; norm_num at this; exact this
  have hlt : (2 : ℕ) ^ 32 = 4294967296 := by norm_num
  refine ⟨Subtype.ext ?_, Subtype.ext ?_, Subtype.ext ?_, Subtype.ext ?_⟩ <;>
    · show (_ + _ + _ + _) % 2 ^ 32 = _
      simp only [le32ToBytes_eq, List.cons_append, List.nil_append, List.getD_cons_zero,
        List.getD_cons_succ]
      omega

theorem bytes_expand (P : List ℕ) (hP : P.length = 16) (hPb : ∀ b ∈ P, b < 256) :
    le32ToBytes (leW P 0).1 ++ le32ToBytes (leW P 4).1 ++ le32ToBytes (leW P 8).1 ++
      le32ToBytes (leW P 12).1 = P := by
  rcases P with _ | ⟨p0, _ | ⟨p1, _ | ⟨p2, _ | ⟨p3, _ | ⟨p4, _ | ⟨p5, _ | ⟨p6, _ | ⟨p7,
    _ | ⟨p8, _ | ⟨p9, _ | ⟨p10, _ | ⟨p11, _ | ⟨p12, _ | ⟨p13, _ | ⟨p14, _ | ⟨p15,
    rest⟩⟩⟩⟩⟩⟩⟩⟩⟩⟩⟩⟩⟩⟩⟩⟩ <;> simp only [List.length_cons, List.length_nil] at hP <;>
    try omega
  have hrest : rest = [] := by
    rw [← List.length_eq_zero]
    omega
  subst hrest
  simp only [List.mem_cons, List.not_mem_nil, or_false, forall_eq_or_imp, forall_eq] at hPb
  obtain ⟨h0, h1, h2, h3, h4, h5, h6, h7, h8, h9, h10, h11, h12, h13, h14, h15⟩ := hPb
  have e0 : leBytesTo32 [p0, p1, p2, p3, p4, p5, p6, p7, p8, p9, p10, p11, p12, p13, p14, p15] 0 =
      p0 + 256 * p1 + 65536 * p2 + 16777216 * p3 := rfl
  have e4 : leBytesTo32 [p0, p1, p2, p3, p4, p5, p6, p7, p8, p9, p10, p11, p12, p13, p14, p15] 4 =
      p4 + 256 * p5 + 65536 * p6 + 16777216 * p7 := rfl
  have e8 : leBytesTo32 [p0, p1, p2, p3, p4, p5, p6, p7, p8, p9, p10, p11, p12, p13, p14, p15] 8 =
      p8 + 256 * p9 + 65536 * p10 + 16777216 * p11 := rfl
  have e12 : leBytesTo32 [p0, p1, p2, p3, p4, p5, p6, p7, p8, p9, p10, p11, p12, p13, p14, p15] 12 =
      p12 + 256 * p13 + 65536 * p14 + 16777216 * p15 := rfl
  have hw : ∀ x : ℕ, (wrap32 x).1 = x % 4294967296 := fun x => rfl
  simp only [leW, e0, e4, e8, e12, hw, le32ToBytes_eq, List.cons_append, List.nil_append,
    List.cons.injEq, and_true]
  refine ⟨?_, ?_, ?_, ?_, ?_, ?_, ?_, ?_, ?_, ?_, ?_, ?_, ?_, ?_, ?_, ?_⟩ <;> omega

/-- C1: for every key of a size listed in SHX's LegalKeySizes (standard
configuration: 16, 24, 32 or 64 bytes) and every 16-byte block P,
encrypting P with an SHX instance initialized for encryption with that
key and then decrypting the result with an SHX instance initialized for
decryption with the same key material returns P. -/
theorem shx_encrypt_decrypt_roundtrip (key P : List ℕ)
    (hkey : key.length = 16 ∨ key.length = 24 ∨ key.length = 32 ∨ key.length = 64)
    (hP : P.length = 16) (hPb : ∀ b ∈ P, b < 256) :
    ∃ st0 stE stD C,
      shxNew 32 = .ok st0 ∧
      shxInit st0 true key = .ok stE ∧
      shxInit st0 false key = .ok stD ∧
      shxTransform stE P 0 (List.replicate 16 0) 0 = some C ∧
      shxTransform stD C 0 (List.replicate 16 0) 0 = some P := by
  have hGood : GoodKeyWords (standardExpandKey key) := standardExpandKey_good key hkey
  obtain ⟨hm, hl⟩ := goodKey_quads hGood
  obtain ⟨cw, hcw⟩ := encQuads_total (toQuads (standardExpandKey key)).length _ rfl hm hl
    ⟨leW P 0, leW P (0 + 4), leW P (0 + 8), leW P (0 + 12)⟩
  have hmem : key.length ∈ ([16, 24, 32, 64] : List ℕ) := by
    rcases hkey with h | h | h | h <;> simp [h]
  refine ⟨⟨32, [], false, false, [16, 24, 32, 64], [32, 40]⟩,
    ⟨standardRounds key.length, standardExpandKey key, true, true, [16, 24, 32, 64], [32, 40]⟩,
    ⟨standardRounds key.length, standardExpandKey key, false, true, [16, 24, 32, 64], [32, 40]⟩,
    le32ToBytes cw.r0.1 ++ le32ToBytes cw.r1.1 ++ le32ToBytes cw.r2.1 ++ le32ToBytes cw.r3.1,
    rfl, ?_, ?_, ?_, ?_⟩
  · unfold shxInit
    rw [if_pos hmem]
  · unfold shxInit
    rw [if_pos hmem]
  · show encrypt128 (standardExpandKey key) P 0 (List.replicate 16 0) 0 = _
    unfold encrypt128 encBytes
    rw [hcw]
    simp only [Option.map_some']
    rw [writeBytes_replicate_eq _ _ (by simp [le32ToBytes])]
  · show decrypt128 (standardExpandKey key) _ 0 (List.replicate 16 0) 0 = _
    unfold decrypt128 decBytes
    obtain ⟨hc0, hc4, hc8, hc12⟩ := leW_le32_concat cw.r0 cw.r1 cw.r2 cw.r3
    have hc4z : leW (le32ToBytes cw.r0.1 ++ le32ToBytes cw.r1.1 ++ le32ToBytes cw.r2.1 ++
        le32ToBytes cw.r3.1) (0 + 4) = cw.r1 := hc4
    have hc8z : leW (le32ToBytes cw.r0.1 ++ le32ToBytes cw.r1.1 ++ le32ToBytes cw.r2.1 ++
        le32ToBytes cw.r3.1) (0 + 8) = cw.r2 := hc8
    have hc12z : leW (le32ToBytes cw.r0.1 ++ le32ToBytes cw.r1.1 ++ le32ToBytes cw.r2.1 ++
        le32ToBytes cw.r3.1) (0 + 12) = cw.r3 := hc12
    rw [hc0, hc4z, hc8z, hc12z]
    have hcwq : (⟨cw.r0, cw.r1, cw.r2, cw.r3⟩ : Word4) = cw := by cases cw; rfl
    rw [hcwq]
    rw [decQuads_encQuads (toQuads (standardExpandKey key)).length _ rfl hm _ _ hcw]
    simp only [Option.map_some']
    have hexp : le32ToBytes (leW P 0).1 ++ le32ToBytes (leW P (0 + 4)).1 ++
        le32ToBytes (leW P (0 + 8)).1 ++ le32ToBytes (leW P (0 + 12)).1 = P := by
      have h4 : (0 : ℕ) + 4 = 4 := rfl
      have h8 : (0 : ℕ) + 8 = 8 := rfl
      have h12 : (0 : ℕ) + 12 = 12 := rfl
      rw [h4, h8, h12]
      exact bytes_expand P hP hPb
    rw [hexp]
    rw [writeBytes_replicate_eq _ _ hP]

/-- Witness for C1 at the all-zero 16-byte key and all-zero block. -/
theorem shx_encrypt_decrypt_roundtrip_witness :
    ∃ st0 stE stD C,
      shxNew 32 = .ok st0 ∧
      shxInit st0 true (List.replicate 16 0) = .ok stE ∧
      shxInit st0 false (List.replicate 16 0) = .ok stD ∧
      shxTransform stE (List.replicate 16 0) 0 (List.replicate 16 0) 0 = some C ∧
      shxTransform stD C 0 (List.replicate 16 0) 0 = some (List.replicate 16 0) :=
  shx_encrypt_decrypt_roundtrip (List.replicate 16 0) (List.replicate 16 0)
    (by simp) (by simp) (by intro b hb; simp at hb; omega)

/-- C2: for every initialized SHX instance (any direction) and buffers
large enough for sixteen consecutive 16-byte blocks, Transform2048 writes
at offset `outOff + 16·i` exactly the bytes that a single-block Transform
call produces on the block at `inOff + 16·i`; the bulk path is
semantically the scalar transform applied to each block independently. -/
theorem shx_transform2048_matches_scalar (st : SHXState) (inp out : List ℕ)
    (inOff outOff : ℕ) (hk : GoodKeyWords st.expKey) (hout : outOff + 256 ≤ out.length) :
    ∃ res, shxTransform2048 st inp inOff out outOff = some res ∧
      res.length = out.length ∧
      ∀ i, i < 16 →
        shxTransform st (byteSlice inp (inOff + 16 * i) 16) 0 (List.replicate 16 0) 0 =
          some (byteSlice res (outOff + 16 * i) 16) := by
  cases hE : st.isEncryption
  · obtain ⟨res, hres, hlen, hblocks⟩ := blockSeq_spec (decBytes st.expKey)
      (decBytes_total st.expKey hk) inp inOff out outOff 16 (by omega)
    refine ⟨res, ?_, hlen, ?_⟩
    · unfold shxTransform2048
      rw [hE]
      simp only [Bool.false_eq_true, if_false]
      exact hres
    · intro i hi
      obtain ⟨b, hb, hsl⟩ := hblocks i hi
      obtain ⟨b', hb', hblen⟩ := decBytes_total st.expKey hk inp (inOff + 16 * i)
      have hbb : b = b' := by
        rw [hb] at hb'
        exact Option.some.inj hb'
      subst hbb
      unfold shxTransform
      rw [hE]
      simp only [Bool.false_eq_true, if_false]
      unfold decrypt128
      rw [decBytes_local, hb]
      simp only [Option.map_some']
      rw [writeBytes_replicate_eq _ _ hblen, hsl]
  · obtain ⟨res, hres, hlen, hblocks⟩ := blockSeq_spec (encBytes st.expKey)
      (encBytes_total st.expKey hk) inp inOff out outOff 16 (by omega)
    refine ⟨res, ?_, hlen, ?_⟩
    · unfold shxTransform2048
      rw [hE]
      simp only [if_true]
      exact hres
    · intro i hi
      obtain ⟨b, hb, hsl⟩ := hblocks i hi
      obtain ⟨b', hb', hblen⟩ := encBytes_total st.expKey hk inp (inOff + 16 * i)
      have hbb : b = b' := by
        rw [hb] at hb'
        exact Option.some.inj hb'
      subst hbb
      unfold shxTransform
      rw [hE]
      simp only [if_true]
      unfold encrypt128
      rw [encBytes_local, hb]
      simp only [Option.map_some']
      rw [writeBytes_replicate_eq _ _ hblen, hsl]

/-- Witness for C2: the zero-key encryption instance on zero buffers. -/
theorem shx_transform2048_matches_scalar_witness :
    ∃ res,
      shxTransform2048
        ⟨32, standardExpandKey (List.replicate 16 0), true, true, [16, 24, 32, 64], [32, 40]⟩
        (List.replicate 256 0) 0 (List.replicate 256 0) 0 = some res ∧
      res.length = (List.replicate (256 : ℕ) (0 : ℕ)).length ∧
      ∀ i, i < 16 →
        shxTransform
          ⟨32, standardExpandKey (List.replicate 16 0), true, true, [16, 24, 32, 64], [32, 40]⟩
          (byteSlice (List.replicate 256 0) (0 + 16 * i) 16) 0 (List.replicate 16 0) 0 =
          some (byteSlice res (0 + 16 * i) 16) :=
  shx_transform2048_matches_scalar _ _ _ 0 0
    (standardExpandKey_good (List.replicate 16 0) (by simp))
    (by simp only [List.length_replicate]; omega)

/-- C3 (amended): in SHX digest mode, the HKDF Extract-then-Expand branch
of SecureExpand is taken exactly when the cipher key exceeds the digest
block size, splitting the key into a block-size prefix used as the HMAC
key and the remainder used as the salt; with a SHA-512 digest
(128-byte blocks) a 64-byte key — a legal size, being the digest output
size — therefore takes the Expand-only branch, and the Extract branch is
reached by the 256-byte legal key. -/
theorem shx_secure_expand_branch (bs : ℕ) (key info : List ℕ) :
    (bs < key.length →
      secureExpandCall bs key info = .extractExpand (key.take bs) (key.drop bs) info) ∧
    (key.length ≤ bs → secureExpandCall bs key info = .expandOnly key info) ∧
    (key.length = 64 → bs = sha512BlockSize →
      secureExpandCall bs key info = .expandOnly key info) ∧
    (key.length = 2 * sha512BlockSize → bs = sha512BlockSize →
      secureExpandCall bs key info =
        .extractExpand (key.take sha512BlockSize) (key.drop sha512BlockSize) info) ∧
    sha512DigestSize ∈ shxHkdfLegalKeySizes sha512DigestSize sha512BlockSize ∧
    2 * sha512BlockSize ∈ shxHkdfLegalKeySizes sha512DigestSize sha512BlockSize := by
  refine ⟨?_, ?_, ?_, ?_, by simp [shxHkdfLegalKeySizes], by simp [shxHkdfLegalKeySizes]⟩
  · intro h
    unfold secureExpandCall
    rw [if_pos h]
  · intro h
    unfold secureExpandCall
    rw [if_neg (by omega)]
  · intro h1 h2
    unfold secureExpandCall
    rw [if_neg (by rw [h1, h2]; unfold sha512BlockSize; omega)]
  · intro h1 h2
    unfold secureExpandCall
    subst h2
    rw [if_pos (by rw [h1]; unfold sha512BlockSize; omega)]

/-- Counterexample to C3 as stated: with the SHA-512 block size of 128
bytes, SecureExpand on a 64-byte key takes the Expand-only branch, not
the Extract-then-Expand branch. -/
theorem shx_secure_expand_64byte_counterexample :
    secureExpandCall sha512BlockSize (List.replicate 64 0) [] =
      HkdfCall.expandOnly (List.replicate 64 0) [] ∧
    HkdfCall.expandOnly (List.replicate 64 0) [] ≠
      HkdfCall.extractExpand ((List.replicate 64 0).take sha512BlockSize)
        ((List.replicate 64 0).drop sha512BlockSize) [] := by
  constructor
  · rfl
  · intro h
    cases h

/-- Witness for C3 (amended) at the 256-byte and 64-byte SHA-512 keys. -/
theorem shx_secure_expand_branch_witness :
    secureExpandCall sha512BlockSize (List.replicate 256 0) [] =
      .extractExpand ((List.replicate 256 0).take sha512BlockSize)
        ((List.replicate 256 0).drop sha512BlockSize) [] ∧
    secureExpandCall sha512BlockSize (List.replicate 64 0) [] =
      .expandOnly (List.replicate 64 0) [] :=
  ⟨(shx_secure_expand_branch sha512BlockSize (List.replicate 256 0) []).1
      (by rw [List.length_replicate]; unfold sha512BlockSize; omega),
    (shx_secure_expand_branch sha512BlockSize (List.replicate 64 0) []).2.2.1
      (by rw [List.length_replicate]) rfl⟩

theorem standardWkList_getD (key : List ℕ) (i : ℕ)
    (hi : i < 4 * (standardRounds key.length + 1)) :
    (standardWkList key).getD i (wrap32 0) =
      if key.length = 64 then wkExt (preKeyWords key) i else wkStd (preKeyWords key) i := by
  unfold standardWkList
  rw [List.getD_eq_getElem?_getD, List.getElem?_map, List.getElem?_range hi]
  rfl

/-- C4: in standard (no-digest) mode, a 64-byte key is expanded with the
extended 16-word rotating polynomial whose taps are at distances
16, 13, 11, 10, 8, 5, 3, 1 (each word rotated left by 11) and the round
count is exactly 40, giving an expanded key of `4·(40+1)` 32-bit words;
keys of 16, 24 or 32 bytes use the standard 8-word polynomial
(taps 8, 5, 3, 1) and 32 rounds. -/
theorem shx_standard_schedule (key : List ℕ) :
    (key.length = 64 →
      standardRounds key.length = 40 ∧
      (standardExpandKey key).length = 4 * (40 + 1) ∧
      ∀ i, 16 ≤ i → i < 4 * (40 + 1) →
        (standardWkList key).getD i (wrap32 0) =
          rotL32 (xor32 (xor32 (xor32 (xor32 (xor32 (xor32 (xor32 (xor32 (xor32
            ((standardWkList key).getD (i - 16) (wrap32 0))
            ((standardWkList key).getD (i - 13) (wrap32 0)))
            ((standardWkList key).getD (i - 11) (wrap32 0)))
            ((standardWkList key).getD (i - 10) (wrap32 0)))
            ((standardWkList key).getD (i - 8) (wrap32 0)))
            ((standardWkList key).getD (i - 5) (wrap32 0)))
            ((standardWkList key).getD (i - 3) (wrap32 0)))
            ((standardWkList key).getD (i - 1) (wrap32 0)))
            (wrap32 serpentPHI)) (wrap32 i)) 11) ∧
    ((key.length = 16 ∨ key.length = 24 ∨ key.length = 32) →
      standardRounds key.length = 32 ∧
      (standardExpandKey key).length = 4 * (32 + 1) ∧
      ∀ i, 8 ≤ i → i < 4 * (32 + 1) →
        (standardWkList key).getD i (wrap32 0) =
          rotL32 (xor32 (xor32 (xor32 (xor32 (xor32
            ((standardWkList key).getD (i - 8) (wrap32 0))
            ((standardWkList key).getD (i - 5) (wrap32 0)))
            ((standardWkList key).getD (i - 3) (wrap32 0)))
            ((standardWkList key).getD (i - 1) (wrap32 0)))
            (wrap32 serpentPHI)) (wrap32 i)) 11) := by
  constructor
  · intro h64
    have hR : standardRounds key.length = 40 := by
      unfold standardRounds
      rw [if_pos h64]
    refine ⟨hR, by rw [standardExpandKey_length, hR], ?_⟩
    intro i h16 hlt
    have hbound : ∀ t : ℕ, t < 4 * (standardRounds key.length + 1) →
        (standardWkList key).getD t (wrap32 0) = wkExt (preKeyWords key) t := by
      intro t ht
      rw [standardWkList_getD key t ht, if_pos h64]
    rw [hbound i (by omega), hbound (i - 16) (by omega), hbound (i - 13) (by omega),
      hbound (i - 11) (by omega), hbound (i - 10) (by omega), hbound (i - 8) (by omega),
      hbound (i - 5) (by omega), hbound (i - 3) (by omega), hbound (i - 1) (by omega)]
    rw [wkExt.eq_def]
    rw [if_neg (by omega)]
  · intro hsmall
    have h64 : ¬ key.length = 64 := by rcases hsmall with h | h | h <;> omega
    have hR : standardRounds key.length = 32 := by
      unfold standardRounds
      rw [if_neg h64]
    refine ⟨hR, by rw [standardExpandKey_length, hR], ?_⟩
    intro i h8 hlt
    have hbound : ∀ t : ℕ, t < 4 * (standardRounds key.length + 1) →
        (standardWkList key).getD t (wrap32 0) = wkStd (preKeyWords key) t := by
      intro t ht
      rw [standardWkList_getD key t ht, if_neg h64]
    rw [hbound i (by omega), hbound (i - 8) (by omega), hbound (i - 5) (by omega),
      hbound (i - 3) (by omega), hbound (i - 1) (by omega)]
    rw [wkStd.eq_def]
    rw [if_neg (by omega)]

/-- Witness for C4 at the all-zero 64-byte and 32-byte keys. -/
theorem shx_standard_schedule_witness :
    (standardRounds (List.replicate 64 0).length = 40 ∧
      (standardExpandKey (List.replicate 64 0)).length = 4 * (40 + 1)) ∧
    (standardRounds (List.replicate 32 0).length = 32 ∧
      (standardExpandKey (List.replicate 32 0)).length = 4 * (32 + 1)) :=
  ⟨⟨((shx_standard_schedule (List.replicate 64 0)).1 (by rw [List.length_replicate])).1,
      ((shx_standard_schedule (List.replicate 64 0)).1 (by rw [List.length_replicate])).2.1⟩,
    ⟨((shx_standard_schedule (List.replicate 32 0)).2
        (Or.inr (Or.inr (by rw [List.length_replicate])))).1,
      ((shx_standard_schedule (List.replicate 32 0)).2
        (Or.inr (Or.inr (by rw [List.length_replicate])))).2.1⟩⟩

/-- C6 evaluation (code bug): a freshly constructed SHX instance is not
initialized, and Transform on it performs no initialization check: it
dispatches straight into the round function, whose first subkey access on
the empty `m_expKey` is out of bounds (`RNDCNT = m_expKey.size() - 4`
even underflows).  In the model the out-of-bounds access is `none`; no
NotInitialized error is raised anywhere on this path. -/
theorem shx_transform_uninitialized :
    shxNew 32 = .ok ⟨32, [], false, false, [16, 24, 32, 64], [32, 40]⟩ ∧
    (⟨32, [], false, false, [16, 24, 32, 64], [32, 40]⟩ : SHXState).isInitialized = false ∧
    shxTransform ⟨32, [], false, false, [16, 24, 32, 64], [32, 40]⟩
      (List.replicate 16 0) 0 (List.replicate 16 0) 0 = none :=
  ⟨rfl, rfl, rfl⟩

/-- C9: in standard mode the Rounds constructor argument has no effect on
the cipher after Initialize: StandardExpand overwrites the round count,
setting 40 for a 64-byte key and 32 for any other legal key, and the
whole post-Initialize state is identical for any two valid constructor
round counts. -/
theorem shx_ctor_rounds_ignored (r1 r2 : ℕ)
    (h1 : r1 ≤ 64 ∧ 32 ≤ r1 ∧ r1 % 8 = 0) (h2 : r2 ≤ 64 ∧ 32 ≤ r2 ∧ r2 % 8 = 0)
    (encryption : Bool) (key : List ℕ)
    (hkey : key.length ∈ ([16, 24, 32, 64] : List ℕ)) :
    ∃ st1 st2 stI,
      shxNew r1 = .ok st1 ∧ shxNew r2 = .ok st2 ∧
      st1.rndCount = r1 ∧ st2.rndCount = r2 ∧
      shxInit st1 encryption key = .ok stI ∧
      shxInit st2 encryption key = shxInit st1 encryption key ∧
      stI.rndCount = (if key.length = 64 then 40 else 32) := by
  refine ⟨⟨r1, [], false, false, [16, 24, 32, 64], [32, 40]⟩,
    ⟨r2, [], false, false, [16, 24, 32, 64], [32, 40]⟩,
    ⟨standardRounds key.length, standardExpandKey key, encryption, true,
      [16, 24, 32, 64], [32, 40]⟩, ?_, ?_, rfl, rfl, ?_, ?_, rfl⟩
  · unfold shxNew
    rw [if_pos h1]
  · unfold shxNew
    rw [if_pos h2]
  · unfold shxInit
    rw [if_pos hkey]
  · simp only [shxInit, hkey, if_pos]

/-- Witness for C9 at constructor rounds 64 and 32 with a 16-byte key. -/
theorem shx_ctor_rounds_ignored_witness :
    ∃ st1 st2 stI,
      shxNew 64 = .ok st1 ∧ shxNew 32 = .ok st2 ∧
      st1.rndCount = 64 ∧ st2.rndCount = 32 ∧
      shxInit st1 true (List.replicate 16 0) = .ok stI ∧
      shxInit st2 true (List.replicate 16 0) = shxInit st1 true (List.replicate 16 0) ∧
      stI.rndCount = (if (List.replicate (16 : ℕ) (0 : ℕ)).length = 64 then 40 else 32) :=
  shx_ctor_rounds_ignored 64 32 (by omega) (by omega) true (List.replicate 16 0)
    (by rw [List.length_replicate]; decide)

/-- The byte-length loop of CSG::LeftEncode:
`for (v = Value, n = 0; v && (n < sizeof(size_t)); ++n, v >>= 8);`. -/
def lenLoop (v n : ℕ) : ℕ :=
  if h : v ≠ 0 ∧ n < 8 then lenLoop (v >>> 8) (n + 1) else n
termination_by 8 - n
decreasing_by omega

/-- The number of base-256 digits of a value (0 for 0): the
specification-side yardstick for the minimal byte length. -/
def bytesOf (v : ℕ) : ℕ :=
  if h : v = 0 then 0 else bytesOf (v >>> 8) + 1
decreasing_by
  simp only [Nat.shiftRight_eq_div_pow]
  exact Nat.div_lt_self (by omega) (by norm_num)

/-- Big-endian value of a byte string. -/
def beVal (bytes : List ℕ) : ℕ := bytes.foldl (fun acc b => acc * 256 + b) 0

/-- CSG::LeftEncode: writes, at `offset`, one byte holding the byte
length `n` (clamped to at least 1 and to `sizeof(size_t)`) followed by
the `n` big-endian bytes of `value`, and returns `n + 1`. -/
def leftEncode (buffer : List ℕ) (offset value : ℕ) : List ℕ × ℕ :=
  let n0 := lenLoop value 0
  let n := if n0 = 0 then 1 else n0
  (writeBytes buffer offset
    (n :: (List.range n).map (fun t => value >>> (8 * (n - 1 - t)) % 256)), n + 1)

theorem lenLoop_eq_bytesOf : ∀ (v n : ℕ), n + bytesOf v ≤ 8 → lenLoop v n = n + bytesOf v := by
  intro v
  induction v using Nat.strong_induction_on with
  | _ v ih =>
    intro n hn
    by_cases hv : v = 0
    · subst hv
      rw [lenLoop, bytesOf]
      simp
    · have hb : bytesOf v = bytesOf (v >>> 8) + 1 := by
        rw [bytesOf]
        simp [hv]
      have hlt : v >>> 8 < v := by
        simp only [Nat.shiftRight_eq_div_pow]
        exact Nat.div_lt_self (by omega) (by norm_num)
      rw [lenLoop]
      rw [dif_pos ⟨hv, by omega⟩]
      rw [ih _ hlt (n + 1) (by omega), hb]
      omega

theorem bytesOf_le (k : ℕ) : ∀ v : ℕ, v < 2 ^ (8 * k) → bytesOf v ≤ k := by
  induction k with
  | zero =>
    intro v hv
    have : v = 0 := by
      simp only [Nat.mul_zero, pow_zero] at hv
      omega
    subst this
    rw [bytesOf]
    simp
  | succ m ih =>
    intro v hv
    by_cases hv0 : v = 0
    · subst hv0
      rw [bytesOf]
      simp
    · rw [bytesOf, dif_neg hv0]
      have h8 : v >>> 8 < 2 ^ (8 * m) := by
        simp only [Nat.shiftRight_eq_div_pow]
        apply Nat.div_lt_of_lt_mul
        have heq : (2 : ℕ) ^ (8 * (m + 1)) = 2 ^ 8 * 2 ^ (8 * m) := by
          rw [← pow_add]
          congr 1
          omega
        rw [← heq]
        exact hv
      have := ih _ h8
      omega

theorem bytesOf_bounds : ∀ v : ℕ, v ≠ 0 →
    2 ^ (8 * (bytesOf v - 1)) ≤ v ∧ v < 2 ^ (8 * bytesOf v) := by
  intro v
  induction v using Nat.strong_induction_on with
  | _ v ih =>
    intro hv
    rw [bytesOf, dif_neg hv]
    by_cases hsmall : v < 256
    · have h0 : v >>> 8 = 0 := by
        simp only [Nat.shiftRight_eq_div_pow]
        omega
      rw [h0]
      rw [show bytesOf 0 = 0 from by rw [bytesOf]; simp]
      constructor
      · simp
        omega
      · have h8 : (8 : ℕ) * (0 + 1) = 8 := by norm_num
        rw [h8]
        omega
    · have hlt : v >>> 8 < v := by
        simp only [Nat.shiftRight_eq_div_pow]
        exact Nat.div_lt_self (by omega) (by norm_num)
      have hne : v >>> 8 ≠ 0 := by
        simp only [Nat.shiftRight_eq_div_pow]
        omega
      obtain ⟨hlo, hhi⟩ := ih _ hlt hne
      set m := bytesOf (v >>> 8) with hm
      have hm1 : 1 ≤ m := by
        by_contra h
        have : m = 0 := by omega
        rw [this] at hhi
        simp at hhi
        exact hne (by omega)
      constructor
      · have : 2 ^ (8 * (m - 1)) * 2 ^ 8 ≤ (v >>> 8) * 2 ^ 8 :=
          Nat.mul_le_mul_right _ hlo
        have hdiv : (v >>> 8) * 2 ^ 8 ≤ v := by
          simp only [Nat.shiftRight_eq_div_pow]
          have := Nat.div_mul_le_self v (2 ^ 8)
          omega
        calc 2 ^ (8 * (m + 1 - 1)) = 2 ^ (8 * (m - 1)) * 2 ^ 8 := by
              rw [← pow_add]
              congr 1
              omega
        _ ≤ (v >>> 8) * 2 ^ 8 := this
        _ ≤ v := hdiv
      · have hstep : v < (v >>> 8 + 1) * 2 ^ 8 := by
          simp only [Nat.shiftRight_eq_div_pow]
          omega
        calc v < (v >>> 8 + 1) * 2 ^ 8 := hstep
        _ ≤ 2 ^ (8 * m) * 2 ^ 8 := Nat.mul_le_mul_right _ (by omega)
        _ = 2 ^ (8 * (m + 1)) := by
              have h88 : 8 * m + 8 = 8 * (m + 1) := by ring
              rw [← pow_add, h88]

theorem beVal_acc (l : List ℕ) : ∀ acc : ℕ,
    List.foldl (fun a b => a * 256 + b) acc l =
      acc * 256 ^ l.length + List.foldl (fun a b => a * 256 + b) 0 l := by
  induction l with
  | nil => intro acc; simp
  | cons b t ih =>
    intro acc
    simp only [List.foldl_cons, List.length_cons]
    rw [ih (acc * 256 + b), ih (0 * 256 + b)]
    ring

theorem beVal_cons (b : ℕ) (l : List ℕ) : beVal (b :: l) = b * 256 ^ l.length + beVal l := by
  unfold beVal
  simp only [List.foldl_cons]
  rw [beVal_acc l (0 * 256 + b)]
  ring

theorem mod_shift_byte (v a s : ℕ) (h : s + 8 ≤ a) :
    ((v % 2 ^ a) >>> s) % 256 = (v >>> s) % 256 := by
  have h256 : (256 : ℕ) = 2 ^ 8 := by norm_num
  rw [h256]
  apply Nat.eq_of_testBit_eq
  intro j
  simp only [Nat.testBit_mod_two_pow, Nat.testBit_shiftRight]
  by_cases hj : j < 8
  · have hsj : s + j < a := by omega
    simp [hj, hsj]
  · simp [hj]

theorem beVal_beBytes (k : ℕ) : ∀ v : ℕ, v < 2 ^ (8 * k) →
    beVal ((List.range k).map (fun t => v >>> (8 * (k - 1 - t)) % 256)) = v := by
  induction k with
  | zero =>
    intro v hv
    have hv0 : v = 0 := by
      simp only [Nat.mul_zero, pow_zero] at hv
      omega
    subst hv0
    rfl
  | succ m ih =>
    intro v hv
    rw [List.range_succ_eq_map]
    simp only [List.map_cons, List.map_map]
    rw [beVal_cons]
    have htail : (List.range m).map ((fun t => v >>> (8 * (m + 1 - 1 - t)) % 256) ∘ Nat.succ) =
        (List.range m).map (fun t => (v % 2 ^ (8 * m)) >>> (8 * (m - 1 - t)) % 256) := by
      apply List.map_congr_left
      intro t ht
      rw [List.mem_range] at ht
      have hidx : m + 1 - 1 - Nat.succ t = m - 1 - t := by omega
      simp only [Function.comp_apply, hidx]
      rw [mod_shift_byte v (8 * m) (8 * (m - 1 - t)) (by omega)]
    rw [htail, ih (v % 2 ^ (8 * m)) (Nat.mod_lt _ (by positivity))]
    have hlen : ((List.range m).map
        (fun t => (v % 2 ^ (8 * m)) >>> (8 * (m - 1 - t)) % 256)).length = m := by
      simp
    rw [hlen]
    have hhead : v >>> (8 * (m + 1 - 1 - 0)) % 256 = v / 2 ^ (8 * m) := by
      have hidx : 8 * (m + 1 - 1 - 0) = 8 * m := by omega
      rw [hidx, Nat.shiftRight_eq_div_pow]
      apply Nat.mod_eq_of_lt
      apply Nat.div_lt_of_lt_mul
      have heq : (2 : ℕ) ^ (8 * (m + 1)) = 2 ^ (8 * m) * 256 := by
        have h256 : (256 : ℕ) = 2 ^ 8 := by norm_num
        have h88 : 8 * m + 8 = 8 * (m + 1) := by ring
        rw [h256, ← pow_add, h88]
      rw [← heq]
      exact hv
    rw [hhead]
    have hpow : (256 : ℕ) ^ m = 2 ^ (8 * m) := by
      have h256 : (256 : ℕ) = 2 ^ 8 := by norm_num
      rw [h256, ← pow_mul]
    rw [hpow, Nat.mul_comm]
    exact Nat.div_add_mod v (2 ^ (8 * m))

theorem bytesOf_zero : bytesOf 0 = 0 := by
  rw [bytesOf]
  simp

theorem bytesOf_pos {v : ℕ} (h : v ≠ 0) : 1 ≤ bytesOf v := by
  rw [bytesOf, dif_neg h]
  omega

/-- C5: CSG::LeftEncode is a pure function that, for every value, writes
the minimal big-endian byte representation of the value preceded by one
byte holding its byte length (minimum one byte) and returns the number of
bytes written; in particular it writes `01 00` for 0, `01 FF` for 255 and
`02 01 00` for 256. -/
theorem csg_left_encode (buffer : List ℕ) (offset value : ℕ) (hv : value < 2 ^ 64) :
    (∃ n bytes,
      leftEncode buffer offset value = (writeBytes buffer offset (n :: bytes), n + 1) ∧
      bytes = (List.range n).map (fun t => value >>> (8 * (n - 1 - t)) % 256) ∧
      bytes.length = n ∧ 1 ≤ n ∧ n ≤ 8 ∧
      beVal bytes = value ∧ value < 2 ^ (8 * n) ∧
      (value ≠ 0 → 2 ^ (8 * (n - 1)) ≤ value) ∧ (value = 0 → n = 1)) ∧
    leftEncode (List.replicate 3 0) 0 0 = ([1, 0, 0], 2) ∧
    leftEncode (List.replicate 3 0) 0 255 = ([1, 255, 0], 2) ∧
    leftEncode (List.replicate 3 0) 0 256 = ([2, 1, 0], 3) := by
  have l0 : lenLoop 0 0 = 0 := by
    rw [lenLoop]
    simp
  have l255 : lenLoop 255 0 = 1 := by
    rw [lenLoop, dif_pos (⟨by norm_num, by norm_num⟩ : (255 : ℕ) ≠ 0 ∧ (0 : ℕ) < 8)]
    rw [show (255 : ℕ) >>> 8 = 0 from rfl, lenLoop]
    simp
  have l256 : lenLoop 256 0 = 2 := by
    rw [lenLoop, dif_pos (⟨by norm_num, by norm_num⟩ : (256 : ℕ) ≠ 0 ∧ (0 : ℕ) < 8)]
    rw [show (256 : ℕ) >>> 8 = 1 from rfl]
    rw [lenLoop, dif_pos (⟨by norm_num, by norm_num⟩ : (1 : ℕ) ≠ 0 ∧ (1 : ℕ) < 8)]
    rw [show (1 : ℕ) >>> 8 = 0 from rfl, lenLoop]
    simp
  refine ⟨?_, ?_, ?_, ?_⟩
  · have hb8 : bytesOf value ≤ 8 := bytesOf_le 8 value (by simpa using hv)
    have hlen0 : lenLoop value 0 = bytesOf value := by
      rw [lenLoop_eq_bytesOf value 0 (by omega)]
      omega
    by_cases h0 : value = 0
    · subst h0
      refine ⟨1, [0], ?_, ?_, rfl, le_refl 1, by omega, rfl, by norm_num, fun h => absurd rfl h,
        fun _ => rfl⟩
      · simp only [leftEncode, l0]
        rfl
      · rfl
    · have hpos : 1 ≤ bytesOf value := bytesOf_pos h0
      obtain ⟨hlo, hhi⟩ := bytesOf_bounds value h0
      refine ⟨bytesOf value,
        (List.range (bytesOf value)).map (fun t => value >>> (8 * (bytesOf value - 1 - t)) % 256),
        ?_, rfl, by simp, hpos, hb8, beVal_beBytes (bytesOf value) value hhi, hhi,
        fun _ => hlo, fun h => absurd h h0⟩
      simp only [leftEncode, hlen0]
      rw [if_neg (by omega)]
  · simp only [leftEncode, l0]
    rfl
  · simp only [leftEncode, l255]
    rfl
  · simp only [leftEncode, l256]
    rfl

/-- Witness for C5 at value 256 in a 3-byte buffer. -/
theorem csg_left_encode_witness :
    ∃ n bytes,
      leftEncode (List.replicate 3 0) 0 256 = (writeBytes (List.replicate 3 0) 0 (n :: bytes), n + 1) ∧
      bytes = (List.range n).map (fun t => 256 >>> (8 * (n - 1 - t)) % 256) ∧
      bytes.length = n ∧ 1 ≤ n ∧ n ≤ 8 ∧
      beVal bytes = 256 ∧ 256 < 2 ^ (8 * n) ∧
      ((256 : ℕ) ≠ 0 → 2 ^ (8 * (n - 1)) ≤ 256) ∧ ((256 : ℕ) = 0 → n = 1) :=
  (csg_left_encode (List.replicate 3 0) 0 256 (by norm_num)).1

/-- The exceptions KDF2 can throw (CryptoKdfException sites in
KDF2.cpp). -/
inductive KdfErr where
  | invalidKey
  | invalidSalt
  | outputLimit
deriving DecidableEq

/-- The KDF2 generator state: digest geometry, the running block counter
`m_kdfCounter` (starting at 1), key, salt and the initialization flag. -/
structure KDF2State where
  blockSize : ℕ
  hashSize : ℕ
  kdfCounter : ℕ
  kdfKey : List ℕ
  kdfSalt : List ℕ
  isInitialized : Bool
deriving DecidableEq

/-- The KDF2 constructor state for a digest with the given block and
output sizes. -/
def kdf2New (blockSize hashSize : ℕ) : KDF2State :=
  ⟨blockSize, hashSize, 1, [], [], false⟩

/-- KDF2::Reset. -/
def kdf2Reset (st : KDF2State) : KDF2State :=
  { st with kdfCounter := 1, kdfKey := [], kdfSalt := [], isInitialized := false }

/-- The single-argument KDF2::Initialize: a key shorter than the digest
output size is rejected; a key of at most one digest block is zero-padded
to exactly one block (ISO 18033 interpretation); a longer key is split
into a one-block key part and a salt part. -/
def kdf2InitKey (st : KDF2State) (key : List ℕ) : Except KdfErr KDF2State :=
  if key.length < st.hashSize then .error .invalidKey
  else
    let base := if st.isInitialized then kdf2Reset st else st
    if key.length ≤ st.blockSize then
      .ok { base with kdfKey := key ++ List.replicate (st.blockSize - key.length) 0,
                      isInitialized := true }
    else
      .ok { base with kdfKey := key.take st.blockSize,
                      kdfSalt := key.drop st.blockSize, isInitialized := true }

/-- Big-endian serialization of the 32-bit block counter, as hashed by
KDF2::Expand (counter >> 24, >> 16, >> 8, counter). -/
def ctrBytesBE (c : ℕ) : List ℕ :=
  [c / 2 ^ 24 % 256, c / 2 ^ 16 % 256, c / 2 ^ 8 % 256, c % 256]

/-- The do-while loop of KDF2::Expand: each iteration hashes
`key || counterBE || salt` into a digest block, increments the counter,
and copies `min(hashSize, remaining)` bytes to the output; the body runs
at least once.  The digest itself is outside the available sources and is
passed in abstractly.  (A zero digest size would loop forever in C++; the
model stops.) -/
def kdf2ExpandGo (digest : List ℕ → List ℕ) (hashSize : ℕ) (key salt : List ℕ)
    (counter remaining : ℕ) : List ℕ × ℕ :=
  let hash := digest (key ++ ctrBytesBE counter ++ salt)
  let cpy := min hashSize remaining
  if h : remaining - cpy = 0 ∨ hashSize = 0 then (hash.take cpy, counter + 1)
  else
    let next := kdf2ExpandGo digest hashSize key salt (counter + 1) (remaining - cpy)
    (hash.take cpy ++ next.1, next.2)
termination_by remaining
decreasing_by
  push_neg at h
  omega

/-- KDF2::Generate: the request is rejected up front — before any output
is produced — when `m_kdfCounter + Length / m_hashSize > 255`; otherwise
Expand fills the output and advances the counter. -/
def kdf2Generate (digest : List ℕ → List ℕ) (st : KDF2State) (len : ℕ) :
    Except KdfErr (List ℕ × KDF2State) :=
  if st.kdfCounter + len / st.hashSize > 255 then .error .outputLimit
  else
    let r := kdf2ExpandGo digest st.hashSize st.kdfKey st.kdfSalt st.kdfCounter len
    .ok (r.1, { st with kdfCounter := r.2 })

theorem kdf2ExpandGo_length (digest : List ℕ → List ℕ) (hashSize : ℕ)
    (hd : ∀ x, (digest x).length = hashSize) (h0 : 0 < hashSize) (key salt : List ℕ) :
    ∀ (remaining counter : ℕ),
      (kdf2ExpandGo digest hashSize key salt counter remaining).1.length = remaining := by
  intro remaining
  induction remaining using Nat.strong_induction_on with
  | _ remaining ih =>
    intro counter
    rw [kdf2ExpandGo]
    by_cases h : remaining - min hashSize remaining = 0 ∨ hashSize = 0
    · rw [dif_pos h]
      simp only [List.length_take, hd]
      omega
    · rw [dif_neg h]
      push_neg at h
      simp only [List.length_append, List.length_take, hd]
      rw [ih (remaining - min hashSize remaining) (by omega) (counter + 1)]
      omega

/-- C7 (amended): KDF2::Generate throws — before producing any output —
exactly when `m_kdfCounter + Length / digestSize > 255`; on a freshly
initialized generator (counter = 1) a request succeeds, producing exactly
the requested bytes, if and only if it is strictly below
`255 · digestSize` bytes; in particular a fresh request of exactly
`255 · digestSize` bytes is rejected. -/
theorem kdf2_generate_bound (digest : List ℕ → List ℕ) (st : KDF2State) (len : ℕ)
    (hd : ∀ x, (digest x).length = st.hashSize) (h0 : 0 < st.hashSize) :
    (st.kdfCounter + len / st.hashSize > 255 →
      kdf2Generate digest st len = .error .outputLimit) ∧
    (st.kdfCounter = 1 → len < 255 * st.hashSize →
      ∃ out st2, kdf2Generate digest st len = .ok (out, st2) ∧ out.length = len) ∧
    (st.kdfCounter = 1 → 255 * st.hashSize ≤ len →
      kdf2Generate digest st len = .error .outputLimit) := by
  refine ⟨?_, ?_, ?_⟩
  · intro h
    rw [kdf2Generate, if_pos h]
  · intro hc hlen
    have hguard : ¬ (st.kdfCounter + len / st.hashSize > 255) := by
      rw [hc]
      have : len / st.hashSize < 255 := Nat.div_lt_of_lt_mul (by omega)
      omega
    rw [kdf2Generate, if_neg hguard]
    exact ⟨_, _, rfl, kdf2ExpandGo_length digest st.hashSize hd h0 _ _ len st.kdfCounter⟩
  · intro hc hlen
    have hguard : st.kdfCounter + len / st.hashSize > 255 := by
      rw [hc]
      have : 255 ≤ len / st.hashSize := Nat.le_div_iff_mul_le h0 |>.mpr (by omega)
      omega
    rw [kdf2Generate, if_pos hguard]

/-- Counterexample to C7 as stated: a fresh KDF2 generator over a 32-byte
digest rejects a request of exactly `255 · 32 = 8160` bytes, although
that total stays within `255 · digestSize`. -/
theorem kdf2_generate_exact_bound_counterexample :
    kdf2Generate (fun _ => List.replicate 32 1)
      ⟨128, 32, 1, List.replicate 128 0, [], true⟩ 8160 = .error .outputLimit ∧
    8160 = 255 * 32 :=
  ⟨rfl, rfl⟩

/-- Witness for C7 on a fresh 32-byte-digest generator: a request of
8159 bytes succeeds, one of 8160 fails. -/
theorem kdf2_generate_bound_witness :
    (∃ out st2, kdf2Generate (fun _ => List.replicate 32 1)
        ⟨128, 32, 1, List.replicate 128 0, [], true⟩ 8159 = .ok (out, st2) ∧
      out.length = 8159) ∧
    kdf2Generate (fun _ => List.replicate 32 1)
      ⟨128, 32, 1, List.replicate 128 0, [], true⟩ 8160 = .error .outputLimit :=
  ⟨(kdf2_generate_bound (fun _ => List.replicate 32 1)
      ⟨128, 32, 1, List.replicate 128 0, [], true⟩ 8159
      (fun x => by rw [List.length_replicate]) (by norm_num)).2.1 rfl (by norm_num),
    (kdf2_generate_bound (fun _ => List.replicate 32 1)
      ⟨128, 32, 1, List.replicate 128 0, [], true⟩ 8160
      (fun x => by rw [List.length_replicate]) (by norm_num)).2.2 rfl (by norm_num)⟩

/-- C10: a key whose length is between the digest output size and the
digest block size is zero-padded to exactly one block by the
single-argument KDF2::Initialize; two such keys differing only by
appended zero bytes produce identical generator states, so every
subsequent Generate call produces identical output. -/
theorem kdf2_init_zero_pad (st : KDF2State) (key : List ℕ) (z : ℕ)
    (h1 : st.hashSize ≤ key.length) (h2 : key.length + z ≤ st.blockSize) :
    ∃ st2,
      kdf2InitKey st key = .ok st2 ∧
      kdf2InitKey st (key ++ List.replicate z 0) = .ok st2 ∧
      st2.kdfKey = key ++ List.replicate (st.blockSize - key.length) 0 ∧
      st2.kdfKey.length = st.blockSize ∧
      ∀ (digest : List ℕ → List ℕ) (len : ℕ),
        (kdf2InitKey st key).map (fun s => kdf2Generate digest s len) =
          (kdf2InitKey st (key ++ List.replicate z 0)).map
            (fun s => kdf2Generate digest s len) := by
  have hlen : (key ++ List.replicate z 0).length = key.length + z := by
    simp
  have hpad : (key ++ List.replicate z 0) ++
      List.replicate (st.blockSize - (key.length + z)) 0 =
      key ++ List.replicate (st.blockSize - key.length) 0 := by
    rw [List.append_assoc, ← List.replicate_add]
    congr 2
    omega
  have hinit1 : kdf2InitKey st key =
      .ok { (if st.isInitialized then kdf2Reset st else st) with
            kdfKey := key ++ List.replicate (st.blockSize - key.length) 0,
            isInitialized := true } := by
    rw [kdf2InitKey, if_neg (by omega)]
    simp only [if_pos (show key.length ≤ st.blockSize by omega)]
  have hinit2 : kdf2InitKey st (key ++ List.replicate z 0) =
      .ok { (if st.isInitialized then kdf2Reset st else st) with
            kdfKey := key ++ List.replicate (st.blockSize - key.length) 0,
            isInitialized := true } := by
    rw [kdf2InitKey, if_neg (by rw [hlen]; omega)]
    simp only [if_pos (show (key ++ List.replicate z 0).length ≤ st.blockSize by
      rw [hlen]; omega)]
    rw [hlen, hpad]
  refine ⟨_, hinit1, hinit2, rfl, ?_, ?_⟩
  · simp only [List.length_append, List.length_replicate]
    omega
  · intro digest len
    rw [hinit1, hinit2]

/-- Witness for C10: a 32-byte key and the same key with 16 appended zero
bytes, on a fresh 64-byte-block generator. -/
theorem kdf2_init_zero_pad_witness :
    ∃ st2,
      kdf2InitKey (kdf2New 64 32) (List.replicate 32 7) = .ok st2 ∧
      kdf2InitKey (kdf2New 64 32) (List.replicate 32 7 ++ List.replicate 16 0) = .ok st2 ∧
      st2.kdfKey = List.replicate 32 7 ++
        List.replicate ((kdf2New 64 32).blockSize - (List.replicate (32 : ℕ) (7 : ℕ)).length) 0 ∧
      st2.kdfKey.length = (kdf2New 64 32).blockSize ∧
      ∀ (digest : List ℕ → List ℕ) (len : ℕ),
        (kdf2InitKey (kdf2New 64 32) (List.replicate 32 7)).map
            (fun s => kdf2Generate digest s len) =
          (kdf2InitKey (kdf2New 64 32) (List.replicate 32 7 ++ List.replicate 16 0)).map
            (fun s => kdf2Generate digest s len) :=
  kdf2_init_zero_pad (kdf2New 64 32) (List.replicate 32 7) 16
    (by rw [List.length_replicate]; exact le_refl 32)
    (by rw [List.length_replicate]; decide)

/-- Modelled from the spec: the little-endian byte serialization of a
`size`-byte integer, the layout produced by IntUtils::Le16/32/64ToBytes,
IntUtils::LeToBlock and (on the library's little-endian targets)
MemUtils::Copy of a typed array. -/
def leBytes (size v : ℕ) : List ℕ := (List.range size).map (fun t => v / 2 ^ (8 * t) % 256)

/-- Little-endian value of a byte string: the inverse reading of
`leBytes`. -/
def leVal (bytes : List ℕ) : ℕ := bytes.foldr (fun b acc => b + 256 * acc) 0

/-- The StreamWriter state: `m_streamPosition` and `m_streamState`. -/
structure StreamWriterState where
  pos : ℕ
  state : List ℕ
deriving DecidableEq

/-- The conditional resize of StreamWriter::Write: when
`m_streamPosition + INPSZE > m_streamState.size()` the stream is resized
(value-initializing the new bytes to zero). -/
def swGrow (st : StreamWriterState) (need : ℕ) : List ℕ :=
  if st.state.length < st.pos + need then
    st.state ++ List.replicate (st.pos + need - st.state.length) 0
  else st.state

/-- StreamWriter::Write(T Value): grow if needed, then store the value
little-endian over `sizeof(T)` bytes (the 8/4/2 cases via
Le64/32/16ToBytes, the default case as a single byte), and advance the
position by `sizeof(T)`. -/
def swWriteValue (size v : ℕ) (st : StreamWriterState) : StreamWriterState :=
  let bytes :=
    match size with
    | 8 => leBytes 8 v
    | 4 => leBytes 4 v
    | 2 => leBytes 2 v
    | _ => leBytes 1 v
  { pos := st.pos + size, state := writeBytes (swGrow st size) st.pos bytes }

/-- StreamWriter::Write of an array of T: grow if needed, then store the
elements as `sizeof(T)·n` contiguous little-endian bytes and advance the
position by `sizeof(T)·n`. -/
def swWriteArray (size : ℕ) (vals : List ℕ) (st : StreamWriterState) : StreamWriterState :=
  { pos := st.pos + size * vals.length,
    state := writeBytes (swGrow st (size * vals.length)) st.pos
      (vals.flatMap (leBytes size)) }

theorem leBytes_length (size v : ℕ) : (leBytes size v).length = size := by
  simp [leBytes]

theorem flatMap_leBytes_length (size : ℕ) : ∀ vals : List ℕ,
    (vals.flatMap (leBytes size)).length = size * vals.length := by
  intro vals
  induction vals with
  | nil => simp
  | cons v t ih =>
    simp only [List.flatMap_cons, List.length_append, leBytes_length, ih, List.length_cons]
    ring

theorem flatMap_leBytes_chunk (size : ℕ) : ∀ (vals : List ℕ) (i : ℕ), i < vals.length →
    byteSlice (vals.flatMap (leBytes size)) (size * i) size = leBytes size (vals.getD i 0) := by
  intro vals
  induction vals with
  | nil =>
    intro i hi
    simp at hi
  | cons v t ih =>
    intro i hi
    cases i with
    | zero =>
      simp only [List.flatMap_cons, Nat.mul_zero, byteSlice, List.drop_zero,
        List.getD_cons_zero]
      rw [List.take_append_eq_append_take, List.take_of_length_le (by rw [leBytes_length]),
        leBytes_length]
      simp
    | succ j =>
      simp only [List.flatMap_cons, List.getD_cons_succ]
      have hstep : byteSlice (leBytes size v ++ t.flatMap (leBytes size))
          (size * (j + 1)) size = byteSlice (t.flatMap (leBytes size)) (size * j) size := by
        unfold byteSlice
        rw [List.drop_append_eq_append_drop,
          List.drop_of_length_le (by
            rw [leBytes_length]
            calc size = size * 1 := (Nat.mul_one size).symm
            _ ≤ size * (j + 1) := Nat.mul_le_mul_left size (by omega)),
          leBytes_length]
        simp only [List.nil_append]
        rw [Nat.mul_succ, Nat.add_sub_cancel]
      rw [hstep, ih j (by
        simp only [List.length_cons] at hi
        omega)]

theorem leVal_leBytes (size : ℕ) : ∀ v : ℕ, v < 2 ^ (8 * size) →
    leVal (leBytes size v) = v := by
  induction size with
  | zero =>
    intro v hv
    simp only [Nat.mul_zero, pow_zero] at hv
    have : v = 0 := by omega
    subst this
    rfl
  | succ m ih =>
    intro v hv
    have hcons : leBytes (m + 1) v = v % 256 :: leBytes m (v / 256) := by
      unfold leBytes
      rw [List.range_succ_eq_map]
      simp only [List.map_cons, List.map_map]
      congr 1
      · simp
      · apply List.map_congr_left
        intro t ht
        simp only [Function.comp_apply]
        rw [Nat.div_div_eq_div_mul]
        congr 2
        have h256 : (256 : ℕ) = 2 ^ 8 := by norm_num
        have h88 : 8 + 8 * t = 8 * t.succ := by omega
        rw [h256, ← pow_add, h88]
    rw [hcons]
    have hval : leVal (v % 256 :: leBytes m (v / 256)) =
        v % 256 + 256 * leVal (leBytes m (v / 256)) := rfl
    rw [hval, ih (v / 256) (by
      apply Nat.div_lt_of_lt_mul
      have heq : (2 : ℕ) ^ (8 * (m + 1)) = 256 * 2 ^ (8 * m) := by
        have h256 : (256 : ℕ) = 2 ^ 8 := by norm_num
        have h88 : 8 + 8 * m = 8 * (m + 1) := by ring
        rw [h256, ← pow_add, h88]
      rw [← heq]
      exact hv)]
    omega

/-- C8: for each multi-byte integer width (1, 2, 4 or 8 bytes),
StreamWriter's Write of a single value and Write of an array append the
elements to the stream as contiguous little-endian byte sequences of
`sizeof(T)` bytes each, growing the underlying stream when needed and
advancing Position by exactly the number of bytes written. -/
theorem streamwriter_write_le (st : StreamWriterState) (size : ℕ)
    (hsize : size = 1 ∨ size = 2 ∨ size = 4 ∨ size = 8) (vals : List ℕ) (v : ℕ) :
    (swWriteArray size vals st).pos = st.pos + size * vals.length ∧
    (swWriteValue size v st).pos = st.pos + size ∧
    (swWriteValue size v st).state = (swWriteArray size [v] st).state ∧
    (st.pos = st.state.length →
      (swWriteArray size vals st).state = st.state ++ vals.flatMap (leBytes size)) ∧
    (st.pos ≤ st.state.length →
      (swWriteArray size vals st).state.length =
        max st.state.length (st.pos + size * vals.length)) ∧
    (∀ i, i < vals.length →
      byteSlice (vals.flatMap (leBytes size)) (size * i) size =
        leBytes size (vals.getD i 0)) ∧
    (v < 2 ^ (8 * size) → leVal (leBytes size v) = v) := by
  refine ⟨rfl, rfl, ?_, ?_, ?_, flatMap_leBytes_chunk size vals, leVal_leBytes size v⟩
  · have hone : ([v] : List ℕ).flatMap (leBytes size) = leBytes size v := by
      simp
    rcases hsize with h | h | h | h <;> subst h <;>
      simp only [swWriteValue, swWriteArray, hone, List.length_cons, List.length_nil,
        Nat.mul_one]
  · intro happend
    unfold swWriteArray swGrow writeBytes
    rw [flatMap_leBytes_length]
    by_cases hz : size * vals.length = 0
    · rw [if_neg (by omega)]
      have hnil : vals.flatMap (leBytes size) = [] := by
        have := flatMap_leBytes_length size vals
        rw [hz] at this
        exact List.eq_nil_of_length_eq_zero this
      rw [hz, hnil]
      simp only [List.append_nil, Nat.add_zero]
      rw [List.take_of_length_le (by omega), List.drop_of_length_le (by omega)]
      simp
    · rw [if_pos (by omega)]
      have htake : List.take st.pos (st.state ++
          List.replicate (st.pos + size * vals.length - st.state.length) 0) = st.state := by
        rw [List.take_append_eq_append_take, List.take_of_length_le (by omega)]
        have : st.pos - st.state.length = 0 := by omega
        rw [this]
        simp
      have hdrop : List.drop (st.pos + size * vals.length) (st.state ++
          List.replicate (st.pos + size * vals.length - st.state.length) 0) = [] := by
        apply List.drop_of_length_le
        simp only [List.length_append, List.length_replicate]
        omega
      rw [htake, hdrop, List.append_nil]
  · intro hle
    unfold swWriteArray swGrow
    rw [writeBytes_length]
    · by_cases hgrow : st.state.length < st.pos + size * vals.length
      · rw [if_pos hgrow]
        simp only [List.length_append, List.length_replicate]
        omega
      · rw [if_neg hgrow]
        omega
    · rw [flatMap_leBytes_length]
      by_cases hgrow : st.state.length < st.pos + size * vals.length
      · rw [if_pos hgrow]
        simp only [List.length_append, List.length_replicate]
        omega
      · rw [if_neg hgrow]
        omega

/-- Witness for C8 with 4-byte values appended at the end of a 2-byte
stream. -/
theorem streamwriter_write_le_witness :
    ((swWriteArray 4 [1, 2] ⟨2, [9, 9]⟩).pos = 2 + 4 * ([1, 2] : List ℕ).length ∧
      (swWriteValue 4 7 ⟨2, [9, 9]⟩).pos = 2 + 4 ∧
      (swWriteValue 4 7 ⟨2, [9, 9]⟩).state = (swWriteArray 4 [7] ⟨2, [9, 9]⟩).state ∧
      ((2 : ℕ) = ([9, 9] : List ℕ).length →
        (swWriteArray 4 [1, 2] ⟨2, [9, 9]⟩).state = [9, 9] ++ ([1, 2] : List ℕ).flatMap (leBytes 4)) ∧
      ((2 : ℕ) ≤ ([9, 9] : List ℕ).length →
        (swWriteArray 4 [1, 2] ⟨2, [9, 9]⟩).state.length =
          max ([9, 9] : List ℕ).length (2 + 4 * ([1, 2] : List ℕ).length)) ∧
      (∀ i, i < ([1, 2] : List ℕ).length →
        byteSlice (([1, 2] : List ℕ).flatMap (leBytes 4)) (4 * i) 4 =
          leBytes 4 (([1, 2] : List ℕ).getD i 0)) ∧
      ((7 : ℕ) < 2 ^ (8 * 4) → leVal (leBytes 4 7) = 7)) :=
  streamwriter_write_le ⟨2, [9, 9]⟩ 4 (by norm_num) [1, 2] 7
